import Mathlib

/-!
Local network runner: process orchestration and readiness coordination.

A shallow embedding of `localnetworkrunner/network.go` and the properties of
its readiness polling (`waitNode`, `Network.Ready`), of its process-tree
teardown (`killProcessAndDescendants`, `Network.Stop`) and of its construction
routine (`NewNetwork`).

Effects are explicit: the clock and the status client of `waitNode` are an
oracle record, signals are recorded in a trace, the file system and the
process launcher of `NewNetwork` are a world value threaded through the code.
Recursion and loops of the source that need not terminate take a fuel
argument; running out of fuel is the value `none`.
-/

namespace LocalNetworkRunner

/-! ## Readiness polling -/

/-- The three subsystems queried by `waitNode`, in the order of the source. -/
inductive Chain where
  | P
  | C
  | X
  deriving DecidableEq, Repr

/-- The pair `(bootstrapped, err)` returned by `info.IsBootstrapped`; `err` is
`true` when the returned error is not nil. -/
structure Reply where
  bootstrapped : Bool
  err : Bool
  deriving DecidableEq, Repr

/-- A status client together with the clock, as seen by one call of `waitNode`.
`reply r c` is the answer to the query for chain `c` issued in poll round `r`
(rounds count from 0), `queryTime r c` the time that query takes and
`sleepTime r` the time the `time.Sleep(pollTime)` following round `r` takes.
Times are in nanoseconds, the unit of `time.Duration`. -/
structure StatusClient where
  reply : Nat → Chain → Reply
  queryTime : Nat → Chain → Nat
  sleepTime : Nat → Nat

/-- The constant `time.Second`. -/
def second : Nat := 1000000000

/-- The local `timeout := 1 * time.Minute`. -/
def timeout : Nat := 60 * second

/-- The local `pollTime := 10 * time.Second`. -/
def pollTime : Nat := 10 * second

/-- The test `err != nil || !bootstrapped` applied to one reply. -/
def notReady (r : Reply) : Bool := r.err || !r.bootstrapped

/-- The body of the loop of `waitNode` in round `r`: the value of `nodeIsUp`
when the body is left and the time spent in the queries that were issued. A
failed `P` or `C` query leaves the body by `continue`, so the later queries
are not issued. -/
def pollRound (cl : StatusClient) (r : Nat) : Bool × Nat :=
  if notReady (cl.reply r Chain.P) then
    (false, cl.queryTime r Chain.P)
  else if notReady (cl.reply r Chain.C) then
    (false, cl.queryTime r Chain.P + cl.queryTime r Chain.C)
  else if notReady (cl.reply r Chain.X) then
    (false, cl.queryTime r Chain.P + cl.queryTime r Chain.C + cl.queryTime r Chain.X)
  else
    (true, cl.queryTime r Chain.P + cl.queryTime r Chain.C + cl.queryTime r Chain.X)

/-- What one call of `waitNode` did: the returned flag, the number of poll
rounds performed and the number of `time.Sleep(pollTime)` calls performed. -/
structure WaitResult where
  ret : Bool
  rounds : Nat
  sleeps : Nat
  deriving DecidableEq, Repr

/-- The loop
`for t0 := time.Now(); !nodeIsUp && time.Since(t0) <= timeout; time.Sleep(pollTime)`
of `waitNode`. `elapsed` is `time.Since(t0)` at the test of the condition,
`rounds` and `sleeps` count the bodies and post statements executed so far.
The post statement runs after every body, also after one that set `nodeIsUp`
and after one left by `continue`. -/
def waitLoop (cl : StatusClient) : Nat → Bool → Nat → Nat → Nat → Option WaitResult
  | 0, _, _, _, _ => none
  | fuel + 1, nodeIsUp, elapsed, rounds, sleeps =>
    if !nodeIsUp && decide (elapsed ≤ timeout) then
      waitLoop cl fuel (pollRound cl rounds).1
        (elapsed + (pollRound cl rounds).2 + cl.sleepTime rounds) (rounds + 1) (sleeps + 1)
    else
      some { ret := nodeIsUp, rounds := rounds, sleeps := sleeps }

/-- The function `waitNode`: `nodeIsUp := false`, `t0 := time.Now()`, then the loop. -/
def waitNode (cl : StatusClient) (fuel : Nat) : Option WaitResult :=
  waitLoop cl fuel false 0 0 0

/-- All three replies of round `r` are `true` without error. -/
def roundReady (cl : StatusClient) (r : Nat) : Prop :=
  ∀ c : Chain, (cl.reply r c).err = false ∧ (cl.reply r c).bootstrapped = true

/-- The value of `time.Since(t0)` at the test that precedes round `r`, when the
rounds before it have been performed. -/
def startOf (cl : StatusClient) : Nat → Nat
  | 0 => 0
  | r + 1 => startOf cl r + (pollRound cl r).2 + cl.sleepTime r

/-! ## Process-tree teardown -/

/-- One entry of the snapshot returned by `ps.Processes()`: the values of
`Pid()` and `PPid()`. -/
structure Proc where
  pid : Int
  ppid : Int
  deriving DecidableEq, Repr

/-- The outcome of `syscall.Kill(pid, syscall.SIGTERM)`: `sig sent pid` is
`true` when the signal to `pid` succeeds, given the signals `sent` so far. -/
abbrev Signaller := List Int → Int → Bool

/-- The signaller under which every signal succeeds. -/
def allSucceed : Signaller := fun _ _ => true

/-- The loop `for _, process := range processes` of
`killProcessAndDescendants`, with `recurse` the recursive call. `sent` is the
trace of the signals sent so far. An error of the recursive call is returned
at once; the error value is the pid whose signal failed. -/
def killChildren (recurse : Int → List Int → Option (Option Int × List Int))
    (processID : Int) : List Proc → List Int → Option (Option Int × List Int)
  | [], sent => some (none, sent)
  | process :: rest, sent =>
    if process.ppid ≠ processID then
      killChildren recurse processID rest sent
    else
      match recurse process.pid sent with
      | none => none
      | some (some e, sent1) => some (some e, sent1)
      | some (none, sent1) => killChildren recurse processID rest sent1

/-- The function `killProcessAndDescendants(processID, processes)`. The result
is `none` when the recursion is deeper than `fuel` calls, else the returned
error (`none` for nil) and the trace of signals sent. -/
def killProcessAndDescendants (sig : Signaller) :
    Nat → List Proc → Int → List Int → Option (Option Int × List Int)
  | 0, _, _, _ => none
  | fuel + 1, processes, processID, sent =>
    match killChildren (killProcessAndDescendants sig fuel processes) processID processes sent with
    | none => none
    | some (some e, sent1) => some (some e, sent1)
    | some (none, sent1) =>
      some (if sig sent1 processID then none else some processID, sent1 ++ [processID])

/-- The errors `Network.Stop` returns. -/
inductive StopError where
  | listProcesses
  | signal (pid : Int)
  deriving DecidableEq, Repr

/-- The loop `for _, proc := range net.procs` of `Network.Stop` over the pids
`proc.Process.Pid`, in the order the map iteration yields them. -/
def stopLoop (sig : Signaller) (fuel : Nat) (processes : List Proc) :
    List Int → List Int → Option (Option StopError × List Int)
  | [], sent => some (none, sent)
  | procID :: rest, sent =>
    match killProcessAndDescendants sig fuel processes procID sent with
    | none => none
    | some (some e, sent1) => some (some (StopError.signal e), sent1)
    | some (none, sent1) => stopLoop sig fuel processes rest sent1

/-- `d` is a process of the snapshot transitively descended from `a`: the
entry of `d` names as parent `a` or a process descended from `a`. -/
inductive Descends (processes : List Proc) : Int → Int → Prop where
  | child {a d : Int} : (⟨d, a⟩ : Proc) ∈ processes → Descends processes a d
  | step {a m d : Int} : Descends processes a m → (⟨d, m⟩ : Proc) ∈ processes →
      Descends processes a d

/-- The parent links of the snapshot are acyclic: no process is its own ancestor. -/
def Acyclic (processes : List Proc) : Prop := ∀ p : Int, ¬ Descends processes p p

/-- The signals of the list `pids` sent one after the other until the first
one that fails: the error and the trace afterwards. -/
def sendUntilFailure (sig : Signaller) : List Int → List Int → Option Int × List Int
  | sent, [] => (none, sent)
  | sent, q :: rest =>
    if sig sent q then sendUntilFailure sig (sent ++ [q]) rest else (some q, sent ++ [q])

/-- The loop of `killProcessAndDescendants` without the signals: the pids the
recursive calls for the children of `processID` visit, in order. -/
def visitChildren (recurse : Int → Option (List Int)) (processID : Int) :
    List Proc → Option (List Int)
  | [] => some []
  | process :: rest =>
    if process.ppid ≠ processID then
      visitChildren recurse processID rest
    else
      match recurse process.pid, visitChildren recurse processID rest with
      | some a, some b => some (a ++ b)
      | _, _ => none

/-- The order in which `killProcessAndDescendants` reaches the pids when no
signal fails: children first, `processID` last. -/
def visitOrder (processes : List Proc) : Nat → Int → Option (List Int)
  | 0, _ => none
  | fuel + 1, processID =>
    match visitChildren (visitOrder processes fuel) processID processes with
    | none => none
    | some l => some (l ++ [processID])

/-! ## Identities, maps and the network -/

/-- A Go map as the list of its entries in insertion order; `mapInsert` keeps
the keys distinct. The order of the list also stands for the order in which a
`range` loop visits the map. -/
abbrev GoMap (κ : Type) (ν : Type) := List (κ × ν)

/-- The assignment `m[k] = v`: the entry of `k` is overwritten when there is
one, else a new entry is added. -/
def mapInsert {κ ν : Type} [DecidableEq κ] : GoMap κ ν → κ → ν → GoMap κ ν
  | [], k, v => [(k, v)]
  | (k1, v1) :: rest, k, v =>
    if k1 = k then (k, v) :: rest else (k1, v1) :: mapInsert rest k v

/-- The lookup `m[k]` with the comma-ok flag as `Option`. -/
def mapLookup {κ ν : Type} [DecidableEq κ] : GoMap κ ν → κ → Option ν
  | [], _ => none
  | (k1, v1) :: rest, k => if k1 = k then some v1 else mapLookup rest k

/-- The keys of a map. -/
def mapKeys {κ ν : Type} (m : GoMap κ ν) : List κ := m.map Prod.fst

/-- The type `ids.ID`, an array of 32 bytes. -/
structure ID where
  bytes : List Nat
  deriving DecidableEq, Repr

/-- The statements `id := ids.ID{}; id[0] = n`: the zero identity with the
counter `n` stored in its first byte. A byte holds the counter modulo 256. -/
def mkID (n : Nat) : ID := ⟨(n % 256) :: List.replicate 31 0⟩

/-- The counter value an identity carries, its first byte. -/
def ID.counter (id : ID) : Nat := id.bytes.headD 0

/-- The type `Node`: the client built by `NewNodeRunnerFromFields` from the
node's label, IP and port. -/
structure Node where
  name : String
  ip : String
  port : Nat
  deriving DecidableEq, Repr

/-- The started `exec.Cmd`: executable path, its one argument and the pid of
`cmd.Process`. -/
structure Cmd where
  path : String
  arg : String
  pid : Int
  deriving DecidableEq, Repr

/-- The type `Network`. -/
structure Network where
  procs : GoMap ID Cmd
  nodes : GoMap ID Node
  nodeIDs : GoMap ID String
  deriving DecidableEq, Repr

/-- The method `Network.Stop`. `listing` is the result of `ps.Processes()`,
`none` when it returns an error. The roots are the pids of `net.procs`. -/
def Network.Stop (sig : Signaller) (fuel : Nat) (listing : Option (List Proc)) (net : Network) :
    Option (Option StopError × List Int) :=
  match listing with
  | none => some (some StopError.listProcesses, [])
  | some processes => stopLoop sig fuel processes (net.procs.map (fun kv => kv.2.pid)) []

/-- What the task started by `Network.Ready` does, as seen by a caller that
receives on both channels: a node has been evaluated by `waitNode` with the
given result, an error naming an identity has been sent on `errorCh`, the
completion signal has been sent on `readyCh`. -/
inductive ReadyEvent where
  | evaluated (k : ID) (up : Bool)
  | errorSent (k : ID)
  | readySent
  deriving DecidableEq, Repr

/-- The loop `for k := range net.nodes` of the task of `Network.Ready`.
`client node` is the behaviour of the status client of `node`. -/
def readyLoop (client : Node → StatusClient) (fuel : Nat) :
    List (ID × Node) → List ReadyEvent → Option (List ReadyEvent)
  | [], events => some events
  | (k, node) :: rest, events =>
    match waitNode (client node) fuel with
    | none => none
    | some res =>
      if !res.ret then
        readyLoop client fuel rest
          (events ++ [ReadyEvent.evaluated k res.ret, ReadyEvent.errorSent k])
      else
        readyLoop client fuel rest (events ++ [ReadyEvent.evaluated k res.ret])

/-- The task started by `Network.Ready`: the loop over the nodes, then the
send on `readyCh`. -/
def Network.Ready (client : Node → StatusClient) (fuel : Nat) (net : Network) :
    Option (List ReadyEvent) :=
  match readyLoop client fuel net.nodes [] with
  | none => none
  | some events => some (events ++ [ReadyEvent.readySent])

/-! ## Network construction -/

/-- A value of a decoded flag mapping (`interface{}` after `json.Unmarshal`).
Numbers are `float64` in Go and are kept here as integers; arrays and objects
are kept as their text. -/
inductive JValue where
  | null
  | bool (b : Bool)
  | num (x : Int)
  | str (s : String)
  | composite (text : String)
  deriving DecidableEq, Repr

/-- A flag mapping, `map[string]interface{}`. -/
abbrev Flags := GoMap String JValue

/-- A flag blob as `json.Unmarshal` reads it: `none` for bytes that do not
decode into a mapping, else the members of the JSON object in textual order. -/
abbrev FlagBlob := Option (List (String × JValue))

/-- The call `json.Unmarshal(blob, &configFlags)` on a mapping that may
already hold entries: the existing entries are kept, the members of the blob
are stored over them. `none` is the error result. -/
def unmarshalInto (configFlags : Flags) (blob : FlagBlob) : Option Flags :=
  match blob with
  | none => none
  | some members => some (members.foldl (fun m kv => mapInsert m kv.1 kv.2) configFlags)

/-- The type assertion `v.(string)` on the result of a map index; `none` is
the run-time panic. -/
def assertString (v : Option JValue) : Option String :=
  match v with
  | some (JValue.str s) => some s
  | _ => none

/-- The type assertion `v.(float64)` on the result of a map index; `none` is
the run-time panic. -/
def assertFloat64 (v : Option JValue) : Option Int :=
  match v with
  | some (JValue.num x) => some x
  | _ => none

/-- The type `NodeConfig`. -/
structure NodeConfig where
  NodeID : String
  ConfigFlags : FlagBlob
  Cert : List Nat
  PrivateKey : List Nat
  BinKind : Int

/-- The type `NetworkConfig`. -/
structure NetworkConfig where
  CoreConfigFlags : FlagBlob
  Genesis : List Nat
  CChainConfig : List Nat
  NodeConfigs : List NodeConfig

/-- What a file holds: bytes, a serialized flag mapping (the result of
`json.Marshal`), or the remains of a write that failed. -/
inductive Contents where
  | bytes (b : List Nat)
  | flags (m : Flags)
  | truncated
  deriving DecidableEq, Repr

/-- The part of the host that `NewNetwork` changes: directories made, files
and their contents, pipes opened, processes started (in order). -/
structure World where
  dirs : List String
  files : GoMap String Contents
  pipes : Nat
  started : List Cmd
  deriving DecidableEq, Repr

/-- The host as `NewNetwork` meets it: the path functions `path.Dir` and
`path.Join`, the constant `config.ConfigFileKey`, and the outcomes of the
operating-system calls, each depending on the world so far. `start` gives the
pid of the started process, or `none` when `cmd.Start()` fails. -/
structure Host where
  pathDir : String → String
  pathJoin : List String → String
  configFileKey : String
  mkdirAll : World → String → Bool
  create : World → String → Bool
  write : World → String → Contents → Bool
  pipe : World → Bool
  start : World → String → String → Option Int

/-- The errors `NewNetwork` returns. -/
inductive BuildError where
  | unmarshal
  | file (fname : String)
  | pipe
  | start (label : String)
  deriving DecidableEq, Repr

/-- How a call ends: it returns a value, it returns an error, or it panics.
The world reached is kept in each case. -/
inductive Res (α : Type) where
  | ok (a : α) (w : World)
  | error (e : BuildError) (w : World)
  | panic (msg : String) (w : World)
  deriving DecidableEq

/-- The function `createFile`: `os.MkdirAll`, `os.Create`, `file.Write`. The
flag is `true` when nil is returned. -/
def createFile (h : Host) (w : World) (fname : String) (contents : Contents) : Bool × World :=
  if !h.mkdirAll w (h.pathDir fname) then (false, w)
  else
    let w1 := { w with dirs := w.dirs ++ [h.pathDir fname] }
    if !h.create w1 fname then (false, w1)
    else
      let w2 := { w1 with files := mapInsert w1.files fname (Contents.bytes []) }
      if !h.write w2 fname contents then
        (false, { w2 with files := mapInsert w2.files fname Contents.truncated })
      else
        (true, { w2 with files := mapInsert w2.files fname contents })

/-- The state the loop of `NewNetwork` carries from one node to the next: the
counter `n`, the mapping `configFlags` (declared before the loop and decoded
into again for every node) and the network built so far. -/
structure LoopState where
  n : Nat
  configFlags : Flags
  net : Network

/-- One pass through the body of the loop `for _, nodeConfig := range
networkConfig.NodeConfigs` of `NewNetwork`. -/
def launchNode (h : Host) (binMap : GoMap Int String) (networkConfig : NetworkConfig)
    (nodeConfig : NodeConfig) (s : LoopState) (w : World) : Res LoopState :=
  match unmarshalInto s.configFlags nodeConfig.ConfigFlags with
  | none => Res.error BuildError.unmarshal w
  | some configFlags =>
  let configBytes := Contents.flags configFlags
  match assertString (mapLookup configFlags "chain-config-dir") with
  | none => Res.panic "chain-config-dir" w
  | some configDir =>
  let configFilePath := h.pathJoin [configDir, "config.json"]
  let cConfigFilePath := h.pathJoin [configDir, "C", "config.json"]
  match assertString (mapLookup configFlags "genesis") with
  | none => Res.panic "genesis" w
  | some genesisPath =>
  match createFile h w genesisPath (Contents.bytes networkConfig.Genesis) with
  | (false, w1) => Res.error (BuildError.file genesisPath) w1
  | (true, w1) =>
  match createFile h w1 cConfigFilePath (Contents.bytes networkConfig.CChainConfig) with
  | (false, w2) => Res.error (BuildError.file cConfigFilePath) w2
  | (true, w2) =>
  match assertString (mapLookup configFlags "staking-tls-cert-file") with
  | none => Res.panic "staking-tls-cert-file" w2
  | some certPath =>
  match createFile h w2 certPath (Contents.bytes nodeConfig.Cert) with
  | (false, w3) => Res.error (BuildError.file certPath) w3
  | (true, w3) =>
  match assertString (mapLookup configFlags "staking-tls-key-file") with
  | none => Res.panic "staking-tls-key-file" w3
  | some keyPath =>
  match createFile h w3 keyPath (Contents.bytes nodeConfig.PrivateKey) with
  | (false, w4) => Res.error (BuildError.file keyPath) w4
  | (true, w4) =>
  match createFile h w4 configFilePath configBytes with
  | (false, w5) => Res.error (BuildError.file configFilePath) w5
  | (true, w5) =>
  if !h.pipe w5 then Res.error BuildError.pipe w5
  else
  let w6 := { w5 with pipes := w5.pipes + 1 }
  let avalanchegoPath := (mapLookup binMap nodeConfig.BinKind).getD ""
  let configFileFlag := "--" ++ h.configFileKey ++ "=" ++ configFilePath
  match h.start w6 avalanchegoPath configFileFlag with
  | none => Res.error (BuildError.start nodeConfig.NodeID) w6
  | some pid =>
  let cmd : Cmd := { path := avalanchegoPath, arg := configFileFlag, pid := pid }
  let w7 := { w6 with started := w6.started ++ [cmd] }
  let id := mkID s.n
  let nodeIDs := mapInsert s.net.nodeIDs id nodeConfig.NodeID
  let procs := mapInsert s.net.procs id cmd
  match assertString (mapLookup configFlags "public-ip") with
  | none => Res.panic "public-ip" w7
  | some nodeIP =>
  match assertFloat64 (mapLookup configFlags "http-port") with
  | none => Res.panic "http-port" w7
  | some nodePort =>
  let node : Node := { name := nodeConfig.NodeID, ip := nodeIP, port := nodePort.toNat }
  Res.ok { n := s.n + 1, configFlags := configFlags,
           net := { procs := procs, nodes := mapInsert s.net.nodes id node, nodeIDs := nodeIDs } } w7

/-- The loop of `NewNetwork` over the node configs that remain. -/
def launchNodes (h : Host) (binMap : GoMap Int String) (networkConfig : NetworkConfig) :
    List NodeConfig → LoopState → World → Res Network
  | [], s, w => Res.ok s.net w
  | nodeConfig :: rest, s, w =>
    match launchNode h binMap networkConfig nodeConfig s w with
    | Res.ok s1 w1 => launchNodes h binMap networkConfig rest s1 w1
    | Res.error e w1 => Res.error e w1
    | Res.panic msg w1 => Res.panic msg w1

/-- The function `NewNetwork(networkConfig, binMap)`, run on the host `h` from
the world `w`. -/
def NewNetwork (h : Host) (networkConfig : NetworkConfig) (binMap : GoMap Int String)
    (w : World) : Res Network :=
  match unmarshalInto [] networkConfig.CoreConfigFlags with
  | none => Res.error BuildError.unmarshal w
  | some configFlags =>
    launchNodes h binMap networkConfig networkConfig.NodeConfigs
      { n := 0, configFlags := configFlags, net := { procs := [], nodes := [], nodeIDs := [] } } w

/-- The events one pass of the loop of `Network.Ready` adds for the entry
`kn` of `net.nodes`: the evaluation, and the error when `waitNode` returned
`false`. -/
def evaluationEvents (client : Node → StatusClient) (fuel : Nat) (kn : ID × Node) :
    List ReadyEvent :=
  match waitNode (client kn.2) fuel with
  | none => []
  | some res =>
    if res.ret then [ReadyEvent.evaluated kn.1 true]
    else [ReadyEvent.evaluated kn.1 false, ReadyEvent.errorSent kn.1]

/-- A client whose three queries answer `true` from round `from` on, each
query taking `q` nanoseconds, each sleep lasting the poll interval. -/
def clientReadyFrom (start q : Nat) : StatusClient :=
  { reply := fun r _ => { bootstrapped := decide (start ≤ r), err := false }
    queryTime := fun _ _ => q
    sleepTime := fun _ => pollTime }

/-- A client that never reports a bootstrapped chain, each query taking `q`
nanoseconds, each sleep lasting the poll interval. -/
def clientNeverReady (q : Nat) : StatusClient :=
  { reply := fun _ _ => { bootstrapped := false, err := false }
    queryTime := fun _ _ => q
    sleepTime := fun _ => pollTime }

/-- The events the loop of `Network.Ready` adds for the entries `nodes`, in
order. -/
def readyTrace (client : Node → StatusClient) (fuel : Nat) : List (ID × Node) → List ReadyEvent
  | [] => []
  | kn :: rest => evaluationEvents client fuel kn ++ readyTrace client fuel rest

/-- What holds of the visit order `out` of the process `p`. -/
def VisitGood (processes : List Proc) (p : Int) (out : List Int) : Prop :=
  (∀ x ∈ out, x = p ∨ Descends processes p x) ∧
  p ∈ out ∧
  (∀ x, Descends processes p x → x ∈ out) ∧
  out.Nodup ∧
  (∀ a d, a ∈ out → Descends processes a d → [d, a].Sublist out) ∧
  out.getLast? = some p

/-- A snapshot with a root (pid 10) that has two generations of descendants,
next to an unrelated process tree. -/
def sampleSnapshot : List Proc :=
  [⟨10, 1⟩, ⟨11, 10⟩, ⟨12, 11⟩, ⟨13, 10⟩, ⟨20, 1⟩, ⟨21, 20⟩]

/-- A snapshot with an entry that names itself as parent. -/
def selfParentSnapshot : List Proc := [⟨8, 7⟩, ⟨7, 7⟩]

/-- A signaller under which the signal to pid 11 fails and all others succeed. -/
def failAt11 : Signaller := fun _ p => decide (p ≠ 11)

/-- The error of `killProcessAndDescendants` as `Network.Stop` returns it. -/
def stopResult (r : Option Int × List Int) : Option StopError × List Int :=
  (r.1.map StopError.signal, r.2)

/-- A network of two launched nodes: the processes 10 and 20. -/
def sampleNetwork : Network :=
  { procs := [(mkID 0, ⟨"/bin/node", "--config-file=/n0/config.json", 10⟩),
              (mkID 1, ⟨"/bin/node", "--config-file=/n1/config.json", 20⟩)]
    nodes := [(mkID 0, ⟨"node0", "127.0.0.1", 9650⟩), (mkID 1, ⟨"node1", "127.0.0.1", 9652⟩)]
    nodeIDs := [(mkID 0, "node0"), (mkID 1, "node1")] }

/-- The status clients of `sampleNetwork`: the node on port 9650 is ready in
the first poll round, the other one never. -/
def sampleClient (node : Node) : StatusClient :=
  if node.port = 9650 then clientReadyFrom 0 1 else clientNeverReady 1

/-- A host on which every operating-system call succeeds; the started
processes get the pids 100, 101, ... -/
def sampleHost : Host :=
  { pathDir := fun fname => fname ++ "/.."
    pathJoin := fun parts => "/".intercalate parts
    configFileKey := "config-file"
    mkdirAll := fun _ _ => true
    create := fun _ _ => true
    write := fun _ _ _ => true
    pipe := fun _ => true
    start := fun w _ _ => some (100 + w.started.length) }

/-- The world before `NewNetwork` runs. -/
def emptyWorld : World := { dirs := [], files := [], pipes := 0, started := [] }

/-- The executable paths by binary kind. -/
def sampleBinMap : GoMap Int String := [(0, "/bin/avalanchego")]

/-- Base flags that hold all six expected keys. -/
def baseFlags : List (String × JValue) :=
  [("chain-config-dir", JValue.str "/n"), ("genesis", JValue.str "/n/genesis.json"),
   ("staking-tls-cert-file", JValue.str "/n/staker.crt"),
   ("staking-tls-key-file", JValue.str "/n/staker.key"),
   ("public-ip", JValue.str "127.0.0.1"), ("http-port", JValue.num 9650),
   ("log-level", JValue.str "info")]

/-- A node config with the given label and overrides. -/
def sampleNode (label : String) (overrides : List (String × JValue)) : NodeConfig :=
  { NodeID := label, ConfigFlags := some overrides, Cert := [1], PrivateKey := [2], BinKind := 0 }

/-- A network config of two nodes: the first overrides `log-level`, the
second does not. -/
def twoNodeConfig : NetworkConfig :=
  { CoreConfigFlags := some baseFlags, Genesis := [7], CChainConfig := [8]
    NodeConfigs :=
      [sampleNode "node0" [("chain-config-dir", JValue.str "/n0"), ("log-level", JValue.str "debug")],
       sampleNode "node1" [("chain-config-dir", JValue.str "/n1")]] }

/-- A network config of one node whose merged flags lack `public-ip`. -/
def noIPConfig : NetworkConfig :=
  { CoreConfigFlags := some (baseFlags.filter (fun kv => kv.1 ≠ "public-ip"))
    Genesis := [7], CChainConfig := [8], NodeConfigs := [sampleNode "node0" []] }

/-- A network config of one node whose `genesis` flag is a number. -/
def numericGenesisConfig : NetworkConfig :=
  { CoreConfigFlags := some baseFlags, Genesis := [7], CChainConfig := [8]
    NodeConfigs := [sampleNode "node0" [("genesis", JValue.num 1)]] }

/-- A network config of `count` nodes without overrides. -/
def manyNodeConfig (count : Nat) : NetworkConfig :=
  { CoreConfigFlags := some baseFlags, Genesis := [7], CChainConfig := [8]
    NodeConfigs := (List.range count).map (fun i => sampleNode (toString i) []) }

/-- What a result of `NewNetwork` registered, when it is a network: the sizes
of `procs` and `nodes`, and the label and the node name held under the
identity of counter 0. -/
def registered (r : Res Network) : Option (Nat × Nat × Option String × Option String) :=
  match r with
  | Res.ok net _ =>
    some (net.procs.length, net.nodes.length, mapLookup net.nodeIDs (mkID 0),
      (mapLookup net.nodes (mkID 0)).map Node.name)
  | _ => none

/-! ## Properties of the readiness polling -/

theorem pollRound_up_iff (cl : StatusClient) (r : Nat) :
    (pollRound cl r).1 = true ↔ roundReady cl r := by
  unfold pollRound roundReady notReady
  constructor
  · intro h c
    cases hP : (cl.reply r Chain.P).err <;> cases hP2 : (cl.reply r Chain.P).bootstrapped <;>
    cases hC : (cl.reply r Chain.C).err <;> cases hC2 : (cl.reply r Chain.C).bootstrapped <;>
    cases hX : (cl.reply r Chain.X).err <;> cases hX2 : (cl.reply r Chain.X).bootstrapped <;>
    simp [hP, hP2, hC, hC2, hX, hX2] at h
    cases c <;> simp [hP, hP2, hC, hC2, hX, hX2]
  · intro h
    simp [h Chain.P, h Chain.C, h Chain.X]

theorem startOf_le_succ (cl : StatusClient) (r : Nat) : startOf cl r ≤ startOf cl (r + 1) := by
  simp only [startOf]
  omega

theorem startOf_mono (cl : StatusClient) {r k : Nat} (h : r ≤ k) : startOf cl r ≤ startOf cl k := by
  induction k with
  | zero =>
    have : r = 0 := by omega
    subst this
    exact Nat.le_refl _
  | succ k ih =>
    rcases Nat.lt_or_ge r (k + 1) with hlt | hge
    · exact Nat.le_trans (ih (by omega)) (startOf_le_succ cl k)
    · have : r = k + 1 := by omega
      subst this
      exact Nat.le_refl _

theorem startOf_lower (cl : StatusClient) (hs : ∀ j, pollTime ≤ cl.sleepTime j) (r : Nat) :
    r * pollTime ≤ startOf cl r := by
  induction r with
  | zero => simp [startOf]
  | succ r ih =>
    simp only [startOf]
    have := hs r
    have h2 : (r + 1) * pollTime = r * pollTime + pollTime := by ring
    omega

theorem startOf_lower_first (cl : StatusClient) (hs : ∀ j, pollTime ≤ cl.sleepTime j) (r : Nat) :
    (r + 1) * pollTime + (pollRound cl 0).2 ≤ startOf cl (r + 1) := by
  induction r with
  | zero =>
    simp only [startOf]
    have := hs 0
    omega
  | succ r ih =>
    have h1 : startOf cl (r + 1 + 1) = startOf cl (r + 1) + (pollRound cl (r + 1)).2
        + cl.sleepTime (r + 1) := rfl
    have := hs (r + 1)
    have h2 : (r + 1 + 1) * pollTime = (r + 1) * pollTime + pollTime := by ring
    omega

theorem waitLoop_up (cl : StatusClient) (fuel elapsed rounds sleeps : Nat) :
    waitLoop cl (fuel + 1) true elapsed rounds sleeps
      = some { ret := true, rounds := rounds, sleeps := sleeps } := by
  simp [waitLoop]

/-- The loop of `waitNode` from the test before round `r` on, when sleeps last
at least the poll interval: it returns, and the result is described by the
rounds it performed. -/
theorem waitLoop_spec (cl : StatusClient) (hs : ∀ j, pollTime ≤ cl.sleepTime j) :
    ∀ (fuel r s : Nat), 7 ≤ fuel + r →
      ∃ res, waitLoop cl (fuel + 1) false (startOf cl r) r s = some res ∧
        r ≤ res.rounds ∧ res.sleeps + r = s + res.rounds ∧
        (∀ j, r ≤ j → j < res.rounds → startOf cl j ≤ timeout) ∧
        ((res.ret = true ∧ r < res.rounds ∧ roundReady cl (res.rounds - 1) ∧
            (∀ j, r ≤ j → j + 1 < res.rounds → ¬ roundReady cl j)) ∨
         (res.ret = false ∧ timeout < startOf cl res.rounds ∧
            (∀ j, r ≤ j → j < res.rounds → ¬ roundReady cl j))) := by
  intro fuel
  induction fuel with
  | zero =>
    intro r s hr
    have hlow := startOf_lower cl hs r
    have hgt : timeout < startOf cl r := by
      have h7 : 7 * pollTime ≤ r * pollTime := Nat.mul_le_mul_right _ (by omega)
      have : timeout < 7 * pollTime := by decide
      omega
    refine ⟨{ ret := false, rounds := r, sleeps := s }, ?_, Nat.le_refl _, rfl, ?_, ?_⟩
    · simp [waitLoop, Nat.not_le.mpr hgt]
    · intro j h1 h2
      exact absurd h2 (by simpa using h1)
    · right
      refine ⟨rfl, hgt, ?_⟩
      intro j h1 h2
      exact absurd h2 (by simpa using h1)
  | succ fuel ih =>
    intro r s hr
    by_cases hc : startOf cl r ≤ timeout
    · cases hup : (pollRound cl r).1 with
      | true =>
        refine ⟨{ ret := true, rounds := r + 1, sleeps := s + 1 }, ?_, Nat.le_succ _, ?_, ?_, ?_⟩
        · rw [waitLoop]
          simp only [Bool.not_false, Bool.true_and, decide_eq_true_eq, hc, if_true, hup]
          exact waitLoop_up cl fuel _ _ _
        · simp only
          omega
        · intro j h1 h2
          have : j = r := by simp only at h2; omega
          subst this
          exact hc
        · left
          refine ⟨rfl, Nat.lt_succ_self _, ?_, ?_⟩
          · exact (pollRound_up_iff cl r).mp hup
          · intro j h1 h2
            simp only at h2
            omega
      | false =>
        obtain ⟨res, hres, hle, hsl, hst, hcase⟩ := ih (r + 1) (s + 1) (by omega)
        have hnr : ¬ roundReady cl r := by
          intro h
          have := (pollRound_up_iff cl r).mpr h
          rw [hup] at this
          exact Bool.noConfusion this
        refine ⟨res, ?_, by omega, by omega, ?_, ?_⟩
        · rw [waitLoop]
          simp only [Bool.not_false, Bool.true_and, decide_eq_true_eq, hc, if_true, hup]
          exact hres
        · intro j h1 h2
          rcases Nat.eq_or_lt_of_le h1 with h | h
          · subst h
            exact hc
          · exact hst j h h2
        · rcases hcase with ⟨h1, h2, h3, h4⟩ | ⟨h1, h2, h3⟩
          · left
            refine ⟨h1, by omega, h3, ?_⟩
            intro j hj1 hj2
            rcases Nat.eq_or_lt_of_le hj1 with h | h
            · subst h
              exact hnr
            · exact h4 j h hj2
          · right
            refine ⟨h1, h2, ?_⟩
            intro j hj1 hj2
            rcases Nat.eq_or_lt_of_le hj1 with h | h
            · subst h
              exact hnr
            · exact h3 j h hj2
    · refine ⟨{ ret := false, rounds := r, sleeps := s }, ?_, Nat.le_refl _, rfl, ?_, ?_⟩
      · rw [waitLoop]
        simp [hc]
      · intro j h1 h2
        exact absurd h2 (by simpa using h1)
      · right
        refine ⟨rfl, Nat.not_le.mp hc, ?_⟩
        intro j h1 h2
        exact absurd h2 (by simpa using h1)

/-- The function `waitNode` returns when it is given fuel for eight tests of
the loop condition, and its result is described by the rounds performed. -/
theorem waitNode_spec (cl : StatusClient) (hs : ∀ j, pollTime ≤ cl.sleepTime j)
    (fuel : Nat) (hf : 8 ≤ fuel) :
    ∃ res, waitNode cl fuel = some res ∧ res.sleeps = res.rounds ∧
      (∀ j, j < res.rounds → startOf cl j ≤ timeout) ∧
      ((res.ret = true ∧ 0 < res.rounds ∧ roundReady cl (res.rounds - 1) ∧
          (∀ j, j + 1 < res.rounds → ¬ roundReady cl j)) ∨
       (res.ret = false ∧ timeout < startOf cl res.rounds ∧
          (∀ j, j < res.rounds → ¬ roundReady cl j))) := by
  obtain ⟨f, rfl⟩ : ∃ f, fuel = f + 1 := ⟨fuel - 1, by omega⟩
  obtain ⟨res, hres, _, hsl, hst, hcase⟩ := waitLoop_spec cl hs f 0 0 (by omega)
  refine ⟨res, hres, by omega, fun j hj => hst j (Nat.zero_le _) hj, ?_⟩
  rcases hcase with ⟨h1, h2, h3, h4⟩ | ⟨h1, h2, h3⟩
  · exact Or.inl ⟨h1, h2, h3, fun j hj => h4 j (Nat.zero_le _) hj⟩
  · exact Or.inr ⟨h1, h2, fun j hj => h3 j (Nat.zero_le _) hj⟩

/-- C3: when sleeps last at least the poll interval, `waitNode` returns, and it
returns `true` if and only if some poll round that starts within the timeout
(`time.Since(t0) <= timeout` at its test) has all three queries answer `true`
without error; a round with a query error or a `false` flag counts as not
ready. -/
theorem waitNode_true_iff_ready_round (cl : StatusClient)
    (hs : ∀ j, pollTime ≤ cl.sleepTime j) (fuel : Nat) (hf : 8 ≤ fuel) :
    ∃ res, waitNode cl fuel = some res ∧
      (res.ret = true ↔ ∃ k, startOf cl k ≤ timeout ∧ roundReady cl k) ∧
      (∀ r c, ((cl.reply r c).err = true ∨ (cl.reply r c).bootstrapped = false) →
        (pollRound cl r).1 = false) := by
  obtain ⟨res, hres, _, hst, hcase⟩ := waitNode_spec cl hs fuel hf
  refine ⟨res, hres, ?_, ?_⟩
  · constructor
    · intro hret
      rcases hcase with ⟨_, h2, h3, _⟩ | ⟨h1, _, _⟩
      · exact ⟨res.rounds - 1, hst _ (by omega), h3⟩
      · rw [hret] at h1
        exact Bool.noConfusion h1
    · rintro ⟨k, hk1, hk2⟩
      rcases hcase with ⟨h1, _, _, _⟩ | ⟨_, h2, h3⟩
      · exact h1
      · exfalso
        rcases Nat.lt_or_ge k res.rounds with hlt | hge
        · exact h3 k hlt hk2
        · have := startOf_mono cl hge
          omega
  · intro r c hbad
    cases hup : (pollRound cl r).1 with
    | false => rfl
    | true =>
      exfalso
      have hr := (pollRound_up_iff cl r).mp hup c
      rcases hbad with h | h
      · rw [hr.1] at h
        exact Bool.noConfusion h
      · rw [hr.2] at h
        exact Bool.noConfusion h

theorem waitNode_true_iff_ready_round_witness :
    (∀ j, pollTime ≤ (clientReadyFrom 2 5).sleepTime j) ∧ 8 ≤ 8 ∧
    ∃ res, waitNode (clientReadyFrom 2 5) 8 = some res ∧
      (res.ret = true ↔
        ∃ k, startOf (clientReadyFrom 2 5) k ≤ timeout ∧ roundReady (clientReadyFrom 2 5) k) ∧
      (∀ r c, (((clientReadyFrom 2 5).reply r c).err = true ∨
          ((clientReadyFrom 2 5).reply r c).bootstrapped = false) →
        (pollRound (clientReadyFrom 2 5) r).1 = false) :=
  ⟨fun _ => Nat.le_refl _, by decide,
    waitNode_true_iff_ready_round (clientReadyFrom 2 5) (fun _ => Nat.le_refl _) 8 (by decide)⟩

/-- C4: when the three queries of the first poll round all answer `true`
without error, `waitNode` returns `true` after exactly one poll round, and it
has performed one `time.Sleep(pollTime)` before returning: the post statement
of the loop runs after the successful round. -/
theorem waitNode_ready_at_once_sleeps_once (cl : StatusClient) (fuel : Nat)
    (h : roundReady cl 0) :
    waitNode cl (fuel + 2) = some { ret := true, rounds := 1, sleeps := 1 } := by
  have hup := (pollRound_up_iff cl 0).mpr h
  unfold waitNode
  rw [waitLoop]
  have h0 : (0 : Nat) ≤ timeout := Nat.zero_le _
  simp only [Bool.not_false, Bool.true_and, decide_eq_true_eq, h0, if_true, hup]
  exact waitLoop_up cl fuel _ _ _

theorem waitNode_ready_at_once_sleeps_once_witness :
    roundReady (clientReadyFrom 0 5) 0 ∧
    waitNode (clientReadyFrom 0 5) (6 + 2) = some { ret := true, rounds := 1, sleeps := 1 } :=
  ⟨fun _ => ⟨rfl, rfl⟩,
    waitNode_ready_at_once_sleeps_once (clientReadyFrom 0 5) 6 (fun _ => ⟨rfl, rfl⟩)⟩

/-- C5, as stated, fails: a client that is never ready and whose queries take
no time, on a clock where each sleep lasts the poll interval, is polled in
seven rounds (at 0, 10, ..., 60 seconds) before `waitNode` returns `false`. -/
theorem waitNode_seven_rounds :
    (∀ r, ¬ roundReady (clientNeverReady 0) r) ∧
    (∀ r, (clientNeverReady 0).sleepTime r = pollTime) ∧
    waitNode (clientNeverReady 0) 8 = some { ret := false, rounds := 7, sleeps := 7 } ∧
    ¬ (7 ≤ 6) := by
  refine ⟨?_, fun _ => rfl, by decide, by decide⟩
  intro r h
  have := (h Chain.P).2
  exact Bool.noConfusion this

/-- C5, amended: when no poll round has all three queries answer `true`, on a
clock where each sleep lasts the poll interval and queries take any time,
`waitNode` performs at most 7 poll rounds and returns `false`; it performs at
most 6 when every query takes a positive time. -/
theorem waitNode_never_ready_rounds (cl : StatusClient) (fuel : Nat) (hf : 8 ≤ fuel)
    (hs : ∀ r, cl.sleepTime r = pollTime) (hn : ∀ r, ¬ roundReady cl r) :
    ∃ res, waitNode cl fuel = some res ∧ res.ret = false ∧ res.rounds ≤ 7 ∧
      ((∀ r c, 0 < cl.queryTime r c) → res.rounds ≤ 6) := by
  have hs2 : ∀ j, pollTime ≤ cl.sleepTime j := fun j => Nat.le_of_eq (hs j).symm
  obtain ⟨res, hres, _, hst, hcase⟩ := waitNode_spec cl hs2 fuel hf
  have hret : res.ret = false := by
    rcases hcase with ⟨_, _, h3, _⟩ | ⟨h1, _, _⟩
    · exact absurd h3 (hn _)
    · exact h1
  have hto : timeout = 6 * pollTime := by decide
  have hp : 0 < pollTime := by decide
  refine ⟨res, hres, hret, ?_, ?_⟩
  · by_contra hgt
    have h7 := hst 7 (by omega)
    have hl := startOf_lower cl hs2 7
    omega
  · intro hq
    by_contra hgt
    have h6 := hst 6 (by omega)
    have hl : 6 * pollTime + (pollRound cl 0).2 ≤ startOf cl 6 := startOf_lower_first cl hs2 5
    have hpos : 0 < (pollRound cl 0).2 := by
      have hP := hq 0 Chain.P
      unfold pollRound
      split
      · exact hP
      · split
        · simp only; omega
        · split <;> (simp only; omega)
    omega

theorem waitNode_never_ready_rounds_witness :
    8 ≤ 8 ∧ (∀ r, (clientNeverReady 3).sleepTime r = pollTime) ∧
    (∀ r, ¬ roundReady (clientNeverReady 3) r) ∧
    ∃ res, waitNode (clientNeverReady 3) 8 = some res ∧ res.ret = false ∧ res.rounds ≤ 7 ∧
      ((∀ r c, 0 < (clientNeverReady 3).queryTime r c) → res.rounds ≤ 6) :=
  have hn : ∀ r, ¬ roundReady (clientNeverReady 3) r :=
    fun _ h => Bool.noConfusion (h Chain.P).2
  ⟨by decide, fun _ => rfl, hn,
    waitNode_never_ready_rounds (clientNeverReady 3) 8 (by decide) (fun _ => rfl) hn⟩

/-! ## Properties of the readiness task -/

theorem readyLoop_eq (client : Node → StatusClient) (fuel : Nat)
    (hw : ∀ node, ∃ res, waitNode (client node) fuel = some res) :
    ∀ (nodes : List (ID × Node)) (events : List ReadyEvent),
      readyLoop client fuel nodes events = some (events ++ readyTrace client fuel nodes) := by
  intro nodes
  induction nodes with
  | nil => intro events; simp [readyLoop, readyTrace]
  | cons kn rest ih =>
    intro events
    obtain ⟨k, node⟩ := kn
    obtain ⟨res, hres⟩ := hw node
    cases hr : res.ret with
    | true =>
      simp only [readyLoop, hres, hr, Bool.not_true]
      rw [if_neg (by simp), ih]
      simp [readyTrace, evaluationEvents, hres, hr]
    | false =>
      simp only [readyLoop, hres, hr, Bool.not_false, if_true]
      rw [ih]
      simp [readyTrace, evaluationEvents, hres, hr]

theorem mem_evaluationEvents (client : Node → StatusClient) (fuel : Nat) (kn : ID × Node)
    (e : ReadyEvent) (he : e ∈ evaluationEvents client fuel kn) :
    e ≠ ReadyEvent.readySent ∧ (∀ k, e = ReadyEvent.errorSent k → k = kn.1) ∧
      (∀ k b, e = ReadyEvent.evaluated k b → k = kn.1) := by
  unfold evaluationEvents at he
  split at he
  · simp at he
  · split at he
    · simp only [List.mem_singleton] at he
      subst he
      exact ⟨by simp, by simp, fun k b h => by injection h with h1 _; exact h1.symm⟩
    · simp only [List.mem_cons, List.mem_singleton, List.mem_nil_iff, or_false] at he
      rcases he with he | he
      · subst he
        exact ⟨by simp, by simp, fun k b h => by injection h with h1 _; exact h1.symm⟩
      · subst he
        exact ⟨by simp, fun k h => by injection h with h1; exact h1.symm, by simp⟩

theorem mem_readyTrace (client : Node → StatusClient) (fuel : Nat) :
    ∀ (nodes : List (ID × Node)) (e : ReadyEvent), e ∈ readyTrace client fuel nodes →
      e ≠ ReadyEvent.readySent ∧ (∀ k, e = ReadyEvent.errorSent k → k ∈ mapKeys nodes) ∧
        (∀ k b, e = ReadyEvent.evaluated k b → k ∈ mapKeys nodes) := by
  intro nodes
  induction nodes with
  | nil => intro e he; simp [readyTrace] at he
  | cons kn rest ih =>
    intro e he
    simp only [readyTrace, List.mem_append] at he
    rcases he with he | he
    · obtain ⟨h1, h2, h3⟩ := mem_evaluationEvents client fuel kn e he
      refine ⟨h1, ?_, ?_⟩
      · intro k hk
        rw [h2 k hk]
        simp [mapKeys]
      · intro k b hk
        rw [h3 k b hk]
        simp [mapKeys]
    · obtain ⟨h1, h2, h3⟩ := ih e he
      refine ⟨h1, ?_, ?_⟩
      · intro k hk
        have := h2 k hk
        simp only [mapKeys, List.map_cons, List.mem_cons]
        exact Or.inr this
      · intro k b hk
        have := h3 k b hk
        simp only [mapKeys, List.map_cons, List.mem_cons]
        exact Or.inr this

theorem count_readyTrace_absent (client : Node → StatusClient) (fuel : Nat)
    (nodes : List (ID × Node)) (k : ID) (hk : k ∉ mapKeys nodes) :
    (readyTrace client fuel nodes).count (ReadyEvent.errorSent k) = 0 ∧
      ∀ b, (readyTrace client fuel nodes).count (ReadyEvent.evaluated k b) = 0 := by
  refine ⟨List.count_eq_zero.mpr ?_, fun b => List.count_eq_zero.mpr ?_⟩
  · intro hmem
    exact hk ((mem_readyTrace client fuel nodes _ hmem).2.1 k rfl)
  · intro hmem
    exact hk ((mem_readyTrace client fuel nodes _ hmem).2.2 k b rfl)

theorem count_evaluationEvents (client : Node → StatusClient) (fuel : Nat) (k : ID) (node : Node)
    (res : WaitResult) (hres : waitNode (client node) fuel = some res) :
    (evaluationEvents client fuel (k, node)).count (ReadyEvent.errorSent k)
        = (if res.ret then 0 else 1) ∧
      (evaluationEvents client fuel (k, node)).count (ReadyEvent.evaluated k res.ret) = 1 ∧
      (evaluationEvents client fuel (k, node)).count (ReadyEvent.evaluated k (!res.ret)) = 0 := by
  unfold evaluationEvents
  cases hr : res.ret <;> simp [hres, hr, List.count_cons]

theorem count_evaluationEvents_other (client : Node → StatusClient) (fuel : Nat) (k : ID)
    (kn : ID × Node) (hne : k ≠ kn.1) :
    (evaluationEvents client fuel kn).count (ReadyEvent.errorSent k) = 0 ∧
      ∀ b, (evaluationEvents client fuel kn).count (ReadyEvent.evaluated k b) = 0 := by
  refine ⟨List.count_eq_zero.mpr ?_, fun b => List.count_eq_zero.mpr ?_⟩
  · intro hmem
    exact hne ((mem_evaluationEvents client fuel kn _ hmem).2.1 k rfl)
  · intro hmem
    exact hne ((mem_evaluationEvents client fuel kn _ hmem).2.2 k b rfl)

theorem count_readyTrace (client : Node → StatusClient) (fuel : Nat) :
    ∀ (nodes : List (ID × Node)), (mapKeys nodes).Nodup →
      ∀ (k : ID) (node : Node) (res : WaitResult), (k, node) ∈ nodes →
        waitNode (client node) fuel = some res →
        (readyTrace client fuel nodes).count (ReadyEvent.errorSent k)
            = (if res.ret then 0 else 1) ∧
          (readyTrace client fuel nodes).count (ReadyEvent.evaluated k res.ret) = 1 ∧
          (readyTrace client fuel nodes).count (ReadyEvent.evaluated k (!res.ret)) = 0 := by
  intro nodes
  induction nodes with
  | nil => intro _ k node res hmem; simp at hmem
  | cons kn rest ih =>
    intro hnd k node res hmem hres
    simp only [mapKeys, List.map_cons, List.nodup_cons] at hnd
    simp only [readyTrace, List.count_append]
    rcases List.mem_cons.mp hmem with heq | hin
    · subst heq
      obtain ⟨a1, a2, a3⟩ := count_evaluationEvents client fuel k node res hres
      obtain ⟨b1, b2⟩ := count_readyTrace_absent client fuel rest k hnd.1
      rw [a1, a2, a3, b1, b2, b2]
      simp
    · have hne : k ≠ kn.1 := by
        intro h
        apply hnd.1
        rw [← h]
        exact List.mem_map.mpr ⟨(k, node), hin, rfl⟩
      obtain ⟨a1, a2⟩ := count_evaluationEvents_other client fuel k kn hne
      obtain ⟨b1, b2, b3⟩ := ih hnd.2 k node res hin hres
      rw [a1, a2, a2, b1, b2, b3]
      simp

/-- C7: with a caller that receives everything sent on both channels, the task
started by `Ready` ends with the completion signal, sent once and after all
else; before it every registered node has been evaluated exactly once, one
error naming the node has been sent for each node whose `waitNode` returned
`false`, none for a node that was ready, and nothing names an identity that is
not registered. -/
theorem Ready_evaluates_every_node (client : Node → StatusClient) (fuel : Nat) (net : Network)
    (hs : ∀ node j, pollTime ≤ (client node).sleepTime j) (hf : 8 ≤ fuel)
    (hk : (mapKeys net.nodes).Nodup) :
    ∃ body, net.Ready client fuel = some (body ++ [ReadyEvent.readySent]) ∧
      ReadyEvent.readySent ∉ body ∧
      (∀ k node, (k, node) ∈ net.nodes →
        ∃ res, waitNode (client node) fuel = some res ∧
          body.count (ReadyEvent.evaluated k res.ret) = 1 ∧
          body.count (ReadyEvent.evaluated k (!res.ret)) = 0 ∧
          body.count (ReadyEvent.errorSent k) = (if res.ret then 0 else 1)) ∧
      (∀ k, k ∉ mapKeys net.nodes →
        body.count (ReadyEvent.errorSent k) = 0 ∧
          ∀ b, body.count (ReadyEvent.evaluated k b) = 0) := by
  have hw : ∀ node, ∃ res, waitNode (client node) fuel = some res := by
    intro node
    obtain ⟨res, hres, _⟩ := waitNode_spec (client node) (hs node) fuel hf
    exact ⟨res, hres⟩
  refine ⟨readyTrace client fuel net.nodes, ?_, ?_, ?_, ?_⟩
  · unfold Network.Ready
    rw [readyLoop_eq client fuel hw]
    simp
  · intro hmem
    exact (mem_readyTrace client fuel _ _ hmem).1 rfl
  · intro k node hmem
    obtain ⟨res, hres⟩ := hw node
    obtain ⟨c1, c2, c3⟩ := count_readyTrace client fuel net.nodes hk k node res hmem hres
    exact ⟨res, hres, c2, c3, c1⟩
  · intro k hk2
    exact count_readyTrace_absent client fuel net.nodes k hk2

/-! ## Properties of the process-tree teardown -/

theorem sendUntilFailure_append (sig : Signaller) :
    ∀ (a b sent : List Int),
      sendUntilFailure sig sent (a ++ b) =
        match sendUntilFailure sig sent a with
        | (none, sent1) => sendUntilFailure sig sent1 b
        | (some e, sent1) => (some e, sent1) := by
  intro a
  induction a with
  | nil => intro b sent; simp [sendUntilFailure]
  | cons q rest ih =>
    intro b sent
    simp only [List.cons_append, sendUntilFailure]
    by_cases hq : sig sent q = true
    · simp only [hq, if_true]
      exact ih b _
    · simp [hq]

theorem sendUntilFailure_allSucceed :
    ∀ (l sent : List Int), sendUntilFailure allSucceed sent l = (none, sent ++ l) := by
  intro l
  induction l with
  | nil => intro sent; simp [sendUntilFailure]
  | cons q rest ih =>
    intro sent
    simp [sendUntilFailure, allSucceed, ih]

/-- The loop of `killProcessAndDescendants` sends the signals of the visit
order of the children until the first failure, when the recursive call does so. -/
theorem killChildren_eq (sig : Signaller)
    (recurse : Int → List Int → Option (Option Int × List Int))
    (visit : Int → Option (List Int))
    (hrec : ∀ p l, visit p = some l → ∀ sent, recurse p sent = some (sendUntilFailure sig sent l))
    (processID : Int) :
    ∀ (L : List Proc) (outs : List Int), visitChildren visit processID L = some outs →
      ∀ sent, killChildren recurse processID L sent = some (sendUntilFailure sig sent outs) := by
  intro L
  induction L with
  | nil =>
    intro outs h sent
    simp only [visitChildren, Option.some.injEq] at h
    subst h
    simp [killChildren, sendUntilFailure]
  | cons e rest ih =>
    intro outs h sent
    by_cases hp : e.ppid ≠ processID
    · rw [visitChildren, if_pos hp] at h
      rw [killChildren, if_pos hp]
      exact ih outs h sent
    · rw [visitChildren, if_neg hp] at h
      rw [killChildren, if_neg hp]
      cases hv : visit e.pid with
      | none => simp [hv] at h
      | some a =>
        cases hb : visitChildren visit processID rest with
        | none => simp [hv, hb] at h
        | some b =>
          simp only [hv, hb, Option.some.injEq] at h
          subst h
          rw [hrec e.pid a hv sent, sendUntilFailure_append]
          rcases hres : sendUntilFailure sig sent a with ⟨err, sent1⟩
          cases err with
          | none => simp only; exact ih b hb sent1
          | some q => simp only

/-- The function `killProcessAndDescendants` sends the signals of the visit
order until the first failure. -/
theorem kill_eq (sig : Signaller) (processes : List Proc) :
    ∀ (fuel : Nat) (processID : Int) (full : List Int),
      visitOrder processes fuel processID = some full →
      ∀ sent, killProcessAndDescendants sig fuel processes processID sent
        = some (sendUntilFailure sig sent full) := by
  intro fuel
  induction fuel with
  | zero => intro p full h; simp [visitOrder] at h
  | succ fuel ih =>
    intro p full h sent
    simp only [visitOrder] at h
    cases hc : visitChildren (visitOrder processes fuel) p processes with
    | none => simp [hc] at h
    | some outs =>
      simp only [hc, Option.some.injEq] at h
      subst h
      have hk := killChildren_eq sig (killProcessAndDescendants sig fuel processes)
        (visitOrder processes fuel) (fun q l hq s => ih q l hq s) p processes outs hc sent
      simp only [killProcessAndDescendants, hk, sendUntilFailure_append]
      rcases hres : sendUntilFailure sig sent outs with ⟨err, sent1⟩
      cases err with
      | none =>
        simp only [sendUntilFailure]
        by_cases hs : sig sent1 p = true <;> simp [hs]
      | some q => simp only

theorem Descends.trans {processes : List Proc} {a b c : Int}
    (h1 : Descends processes a b) (h2 : Descends processes b c) : Descends processes a c := by
  induction h2 with
  | child hmem => exact Descends.step h1 hmem
  | step _ hmem ih => exact Descends.step ih hmem

theorem Descends.first {processes : List Proc} {a d : Int} (h : Descends processes a d) :
    ∃ c, (⟨c, a⟩ : Proc) ∈ processes ∧ (d = c ∨ Descends processes c d) := by
  induction h with
  | child hmem => exact ⟨_, hmem, Or.inl rfl⟩
  | step _ hmem ih =>
    obtain ⟨c, hc, hcase⟩ := ih
    refine ⟨c, hc, Or.inr ?_⟩
    rcases hcase with h | h
    · subst h
      exact Descends.child hmem
    · exact Descends.step h hmem

theorem Descends.last {processes : List Proc} {b x : Int} (h : Descends processes b x) :
    ∃ m, (⟨x, m⟩ : Proc) ∈ processes ∧ (b = m ∨ Descends processes b m) := by
  cases h with
  | child hmem => exact ⟨_, hmem, Or.inl rfl⟩
  | step h1 hmem => exact ⟨_, hmem, Or.inr h1⟩

theorem Descends.pid_mem {processes : List Proc} {a d : Int} (h : Descends processes a d) :
    d ∈ processes.map Proc.pid := by
  obtain ⟨m, hm, _⟩ := h.last
  exact List.mem_map.mpr ⟨_, hm, rfl⟩

/-- A snapshot whose parent links go from a pid to a smaller rank is acyclic. -/
theorem acyclic_of_rank (processes : List Proc) (rank : Int → Nat)
    (h : ∀ e ∈ processes, rank e.ppid < rank e.pid) : Acyclic processes := by
  have key : ∀ a d, Descends processes a d → rank a < rank d := by
    intro a d hd
    induction hd with
    | child hmem => exact h _ hmem
    | step _ hmem ih => exact Nat.lt_trans ih (h _ hmem)
  intro p hp
  exact Nat.lt_irrefl _ (key p p hp)

theorem visitChildren_some (visit : Int → Option (List Int)) (processID : Int) :
    ∀ (L : List Proc), (∀ e ∈ L, e.ppid = processID → ∃ l, visit e.pid = some l) →
      ∃ outs, visitChildren visit processID L = some outs := by
  intro L
  induction L with
  | nil => intro _; exact ⟨[], rfl⟩
  | cons e rest ih =>
    intro h
    obtain ⟨b, hb⟩ := ih (fun e' he' hp => h e' (List.mem_cons_of_mem _ he') hp)
    by_cases hp : e.ppid ≠ processID
    · exact ⟨b, by rw [visitChildren, if_pos hp]; exact hb⟩
    · obtain ⟨a, ha⟩ := h e (List.mem_cons_self _ _) (not_not.mp hp)
      exact ⟨a ++ b, by rw [visitChildren, if_neg hp, ha, hb]⟩

/-- The visit below `processID` ends within `fuel` nested calls when the
descendants of `processID` lie in a set of fewer than `fuel` pids. -/
theorem visitOrder_some (processes : List Proc) (hac : Acyclic processes) :
    ∀ (fuel : Nat) (S : Finset Int) (processID : Int), S.card < fuel →
      (∀ q, Descends processes processID q → q ∈ S) →
      ∃ full, visitOrder processes fuel processID = some full := by
  intro fuel
  induction fuel with
  | zero => intro S p h; exact absurd h (Nat.not_lt_zero _)
  | succ fuel ih =>
    intro S p hcard hS
    have hch : ∀ e ∈ processes, e.ppid = p → ∃ l, visitOrder processes fuel e.pid = some l := by
      intro e he hp
      have hde : Descends processes p e.pid := by
        apply Descends.child
        rw [← hp]
        exact he
      have hmem : e.pid ∈ S := hS _ hde
      apply ih (S.erase e.pid) e.pid
      · rw [Finset.card_erase_of_mem hmem]
        have : 0 < S.card := Finset.card_pos.mpr ⟨_, hmem⟩
        omega
      · intro q hq
        refine Finset.mem_erase.mpr ⟨?_, hS q (hde.trans hq)⟩
        intro heq
        rw [heq] at hq
        exact hac _ hq
    obtain ⟨outs, houts⟩ := visitChildren_some (visitOrder processes fuel) p processes hch
    exact ⟨outs ++ [p], by simp only [visitOrder, houts]⟩

theorem visitOrder_terminates (processes : List Proc) (hac : Acyclic processes)
    (fuel : Nat) (hf : processes.length + 1 ≤ fuel) (processID : Int) :
    ∃ full, visitOrder processes fuel processID = some full := by
  apply visitOrder_some processes hac fuel (processes.map Proc.pid).toFinset processID
  · have h1 := List.toFinset_card_le (processes.map Proc.pid)
    simp only [List.length_map] at h1
    omega
  · intro q hq
    exact List.mem_toFinset.mpr hq.pid_mem

theorem parent_unique (processes : List Proc) (hnd : (processes.map Proc.pid).Nodup)
    {x m1 m2 : Int} (h1 : (⟨x, m1⟩ : Proc) ∈ processes) (h2 : (⟨x, m2⟩ : Proc) ∈ processes) :
    m1 = m2 := by
  have := List.inj_on_of_nodup_map hnd h1 h2 rfl
  injection this

/-- With distinct pids the ancestors of a process form a chain. -/
theorem Descends.chain (processes : List Proc) (hnd : (processes.map Proc.pid).Nodup)
    {a b x : Int} (ha : Descends processes a x) (hb : Descends processes b x) :
    a = b ∨ Descends processes a b ∨ Descends processes b a := by
  induction ha with
  | child hmem =>
    obtain ⟨m, hm, hcase⟩ := hb.last
    have := parent_unique processes hnd hm hmem
    subst this
    rcases hcase with h | h
    · exact Or.inl h.symm
    · exact Or.inr (Or.inr h)
  | step h1 hmem ih =>
    obtain ⟨m, hm, hcase⟩ := hb.last
    have := parent_unique processes hnd hm hmem
    subst this
    rcases hcase with h | h
    · subst h
      exact Or.inr (Or.inl h1)
    · exact ih h

theorem no_sibling_descent (processes : List Proc) (hnd : (processes.map Proc.pid).Nodup)
    (hac : Acyclic processes) {p c1 c2 : Int} (h1 : (⟨c1, p⟩ : Proc) ∈ processes)
    (h2 : (⟨c2, p⟩ : Proc) ∈ processes) (hd : Descends processes c1 c2) : False := by
  obtain ⟨m, hm, hcase⟩ := hd.last
  have := parent_unique processes hnd hm h2
  subst this
  rcases hcase with h | h
  · subst h
    exact hac _ (Descends.child h1)
  · exact hac _ ((Descends.child h1).trans h)

theorem siblings_disjoint (processes : List Proc) (hnd : (processes.map Proc.pid).Nodup)
    (hac : Acyclic processes) {p c1 c2 x : Int} (h1 : (⟨c1, p⟩ : Proc) ∈ processes)
    (h2 : (⟨c2, p⟩ : Proc) ∈ processes) (hne : c1 ≠ c2)
    (hx1 : x = c1 ∨ Descends processes c1 x) (hx2 : x = c2 ∨ Descends processes c2 x) :
    False := by
  rcases hx1 with e1 | d1 <;> rcases hx2 with e2 | d2
  · exact hne (e1.symm.trans e2)
  · subst e1
    exact no_sibling_descent processes hnd hac h2 h1 d2
  · subst e2
    exact no_sibling_descent processes hnd hac h1 h2 d1
  · rcases Descends.chain processes hnd d1 d2 with h | h | h
    · exact hne h
    · exact no_sibling_descent processes hnd hac h1 h2 h
    · exact no_sibling_descent processes hnd hac h2 h1 h

theorem visitChildren_good (processes : List Proc) (hnd : (processes.map Proc.pid).Nodup)
    (hac : Acyclic processes) (visit : Int → Option (List Int))
    (hvisit : ∀ c out, visit c = some out → VisitGood processes c out) (p : Int) :
    ∀ (L : List Proc), (∀ e ∈ L, e ∈ processes) → (L.map Proc.pid).Nodup →
      ∀ outs, visitChildren visit p L = some outs →
        (∀ x ∈ outs, ∃ e ∈ L, e.ppid = p ∧ (x = e.pid ∨ Descends processes e.pid x)) ∧
        (∀ e ∈ L, e.ppid = p → e.pid ∈ outs ∧ ∀ x, Descends processes e.pid x → x ∈ outs) ∧
        outs.Nodup ∧
        (∀ a d, a ∈ outs → Descends processes a d → [d, a].Sublist outs) := by
  intro L
  induction L with
  | nil =>
    intro _ _ outs h
    simp only [visitChildren, Option.some.injEq] at h
    subst h
    simp
  | cons e rest ih =>
    intro hsub hLnd outs h
    have hsub2 : ∀ e' ∈ rest, e' ∈ processes := fun e' he' => hsub e' (List.mem_cons_of_mem _ he')
    simp only [List.map_cons, List.nodup_cons] at hLnd
    by_cases hp : e.ppid ≠ p
    · rw [visitChildren, if_pos hp] at h
      obtain ⟨hA, hB, hC, hD⟩ := ih hsub2 hLnd.2 outs h
      refine ⟨?_, ?_, hC, hD⟩
      · intro x hx
        obtain ⟨e', he', r⟩ := hA x hx
        exact ⟨e', List.mem_cons_of_mem _ he', r⟩
      · intro e' he' hp'
        rcases List.mem_cons.mp he' with heq | hin
        · subst heq
          exact absurd hp' hp
        · exact hB e' hin hp'
    · have hpe : e.ppid = p := not_not.mp hp
      rw [visitChildren, if_neg hp] at h
      cases hv : visit e.pid with
      | none => simp [hv] at h
      | some a =>
        cases hb : visitChildren visit p rest with
        | none => simp [hv, hb] at h
        | some b =>
          simp only [hv, hb, Option.some.injEq] at h
          subst h
          obtain ⟨g1, g2, g3, g4, g5, _⟩ := hvisit e.pid a hv
          obtain ⟨hA, hB, hC, hD⟩ := ih hsub2 hLnd.2 b hb
          have hein : (⟨e.pid, p⟩ : Proc) ∈ processes := by
            have := hsub e (List.mem_cons_self _ _)
            rw [← hpe]
            exact this
          refine ⟨?_, ?_, ?_, ?_⟩
          · intro x hx
            rcases List.mem_append.mp hx with hx | hx
            · exact ⟨e, List.mem_cons_self _ _, hpe, g1 x hx⟩
            · obtain ⟨e', he', r⟩ := hA x hx
              exact ⟨e', List.mem_cons_of_mem _ he', r⟩
          · intro e' he' hp'
            rcases List.mem_cons.mp he' with heq | hin
            · subst heq
              exact ⟨List.mem_append_left _ g2, fun x hx => List.mem_append_left _ (g3 x hx)⟩
            · obtain ⟨b1, b2⟩ := hB e' hin hp'
              exact ⟨List.mem_append_right _ b1, fun x hx => List.mem_append_right _ (b2 x hx)⟩
          · refine List.Nodup.append g4 hC ?_
            intro x hxa hxb
            obtain ⟨e', he', hp', hx'⟩ := hA x hxb
            have he'in : (⟨e'.pid, p⟩ : Proc) ∈ processes := by
              have := hsub2 e' he'
              rw [← hp']
              exact this
            have hne : e.pid ≠ e'.pid := by
              intro heq
              apply hLnd.1
              rw [heq]
              exact List.mem_map.mpr ⟨e', he', rfl⟩
            exact siblings_disjoint processes hnd hac hein he'in hne (g1 x hxa) hx'
          · intro x d hx hd
            rcases List.mem_append.mp hx with hx | hx
            · exact (g5 x d hx hd).trans (List.sublist_append_left _ _)
            · exact (hD x d hx hd).trans (List.sublist_append_right _ _)

/-- The visit order of `processID`, for distinct pids and acyclic parent
links: the process and its descendants, each once, descendants first. -/
theorem visitOrder_good (processes : List Proc) (hnd : (processes.map Proc.pid).Nodup)
    (hac : Acyclic processes) :
    ∀ (fuel : Nat) (processID : Int) (out : List Int),
      visitOrder processes fuel processID = some out → VisitGood processes processID out := by
  intro fuel
  induction fuel with
  | zero => intro p out h; simp [visitOrder] at h
  | succ fuel ih =>
    intro p out h
    simp only [visitOrder] at h
    cases hc : visitChildren (visitOrder processes fuel) p processes with
    | none => simp [hc] at h
    | some outs =>
      simp only [hc, Option.some.injEq] at h
      subst h
      obtain ⟨hA, hB, hC, hD⟩ := visitChildren_good processes hnd hac
        (visitOrder processes fuel) ih p processes (fun e he => he) hnd outs hc
      have hdesc : ∀ x ∈ outs, Descends processes p x := by
        intro x hx
        obtain ⟨e, he, hp, hcase⟩ := hA x hx
        have hch : Descends processes p e.pid := by
          apply Descends.child
          rw [← hp]
          exact he
        rcases hcase with h | h
        · rw [h]
          exact hch
        · exact hch.trans h
      have hall : ∀ x, Descends processes p x → x ∈ outs := by
        intro x hx
        obtain ⟨c, hc1, hcase⟩ := hx.first
        obtain ⟨b1, b2⟩ := hB ⟨c, p⟩ hc1 rfl
        rcases hcase with h | h
        · rw [h]
          exact b1
        · exact b2 x h
      refine ⟨?_, by simp, ?_, ?_, ?_, by simp⟩
      · intro x hx
        rcases List.mem_append.mp hx with hx | hx
        · exact Or.inr (hdesc x hx)
        · exact Or.inl (List.mem_singleton.mp hx)
      · intro x hx
        exact List.mem_append_left _ (hall x hx)
      · refine List.Nodup.append hC (List.nodup_singleton p) ?_
        intro x hx1 hx2
        have := List.mem_singleton.mp hx2
        subst this
        exact hac _ (hdesc _ hx1)
      · intro a d ha hd
        rcases List.mem_append.mp ha with ha | ha
        · exact (hD a d ha hd).trans (List.sublist_append_left _ _)
        · have := List.mem_singleton.mp ha
          subst this
          have hdin : d ∈ outs := hall d hd
          have h1 : [d].Sublist outs := List.singleton_sublist.mpr hdin
          exact List.Sublist.append h1 (List.Sublist.refl [a])

theorem killChildren_allSucceed_no_error
    (recurse : Int → List Int → Option (Option Int × List Int))
    (hrec : ∀ p s e s1, recurse p s ≠ some (some e, s1)) (processID : Int) :
    ∀ (L : List Proc) (sent : List Int) (e : Int) (s1 : List Int),
      killChildren recurse processID L sent ≠ some (some e, s1) := by
  intro L
  induction L with
  | nil => intro sent e s1; simp [killChildren]
  | cons x rest ih =>
    intro sent e s1
    by_cases hp : x.ppid ≠ processID
    · rw [killChildren, if_pos hp]
      exact ih sent e s1
    · rw [killChildren, if_neg hp]
      rcases hr : recurse x.pid sent with _ | ⟨err, s2⟩
      · simp
      · cases err with
        | none => simp only; exact ih s2 e s1
        | some q => exact absurd hr (hrec _ _ _ _)

theorem kill_allSucceed_no_error (processes : List Proc) :
    ∀ (fuel : Nat) (p : Int) (s : List Int) (e : Int) (s1 : List Int),
      killProcessAndDescendants allSucceed fuel processes p s ≠ some (some e, s1) := by
  intro fuel
  induction fuel with
  | zero => intro p s e s1; simp [killProcessAndDescendants]
  | succ fuel ih =>
    intro p s e s1
    rw [killProcessAndDescendants]
    rcases hk : killChildren (killProcessAndDescendants allSucceed fuel processes) p processes s
      with _ | ⟨err, s2⟩
    · simp
    · cases err with
      | none => simp [allSucceed]
      | some q =>
        exact absurd hk (killChildren_allSucceed_no_error _ ih p processes s q s2)

theorem killChildren_self_parent
    (recurse : Int → List Int → Option (Option Int × List Int))
    (hrec : ∀ p s e s1, recurse p s ≠ some (some e, s1)) (processID : Int)
    (hnone : ∀ s, recurse processID s = none) :
    ∀ (L : List Proc), (⟨processID, processID⟩ : Proc) ∈ L →
      ∀ sent, killChildren recurse processID L sent = none := by
  intro L
  induction L with
  | nil => intro h; simp at h
  | cons x rest ih =>
    intro hmem sent
    rcases List.mem_cons.mp hmem with heq | hin
    · subst heq
      simp [killChildren, hnone]
    · by_cases hp : x.ppid ≠ processID
      · rw [killChildren, if_pos hp]
        exact ih hin sent
      · rw [killChildren, if_neg hp]
        rcases hr : recurse x.pid sent with _ | ⟨err, s2⟩
        · rfl
        · cases err with
          | none => simp only; exact ih hin s2
          | some q => exact absurd hr (hrec _ _ _ _)

theorem kill_self_parent (processes : List Proc) (root : Int)
    (hmem : (⟨root, root⟩ : Proc) ∈ processes) :
    ∀ (fuel : Nat) (sent : List Int),
      killProcessAndDescendants allSucceed fuel processes root sent = none := by
  intro fuel
  induction fuel with
  | zero => intro sent; rfl
  | succ fuel ih =>
    intro sent
    rw [killProcessAndDescendants,
      killChildren_self_parent _ (kill_allSucceed_no_error processes fuel) root ih processes hmem]

theorem sampleSnapshot_acyclic : Acyclic sampleSnapshot :=
  acyclic_of_rank sampleSnapshot Int.toNat (by decide)

/-- C2: for a snapshot with distinct pids and acyclic parent links, when every
signal succeeds `killProcessAndDescendants` returns nil having signalled
exactly the root and the snapshot processes descended from it, each once,
every process after all of its descendants and the root last; a root without
descendants in the snapshot gets the only signal. -/
theorem kill_signals_tree_children_first (sig : Signaller) (processes : List Proc) (root : Int)
    (fuel : Nat) (hf : processes.length + 1 ≤ fuel)
    (hsig : ∀ sent p, sig sent p = true)
    (hnd : (processes.map Proc.pid).Nodup) (hac : Acyclic processes) :
    ∃ out, killProcessAndDescendants sig fuel processes root [] = some (none, out) ∧
      out.Nodup ∧
      (∀ p, p ∈ out ↔ p = root ∨ Descends processes root p) ∧
      (∀ a d, a ∈ out → Descends processes a d → [d, a].Sublist out) ∧
      out.getLast? = some root ∧
      ((∀ p, ¬ Descends processes root p) → out = [root]) := by
  have hs : sig = allSucceed := by
    funext sent p
    exact hsig sent p
  subst hs
  obtain ⟨out, hout⟩ := visitOrder_terminates processes hac fuel hf root
  obtain ⟨g1, g2, g3, g4, g5, g6⟩ := visitOrder_good processes hnd hac fuel root out hout
  refine ⟨out, ?_, g4, ?_, g5, g6, ?_⟩
  · rw [kill_eq allSucceed processes fuel root out hout, sendUntilFailure_allSucceed]
    simp
  · intro p
    constructor
    · exact g1 p
    · rintro (h | h)
      · rw [h]
        exact g2
      · exact g3 p h
  · intro hno
    have hall : ∀ x ∈ out, x = root := by
      intro x hx
      rcases g1 x hx with h | h
      · exact h
      · exact absurd h (hno x)
    match out, g2, g4, hall with
    | [], h, _, _ => simp at h
    | [a], _, _, hall => rw [hall a (by simp)]
    | a :: b :: rest, _, hnd2, hall =>
      exfalso
      have ha := hall a (by simp)
      have hb := hall b (by simp)
      rw [ha, hb] at hnd2
      simp at hnd2

theorem kill_signals_tree_children_first_witness :
    sampleSnapshot.length + 1 ≤ 7 ∧ (∀ sent p, allSucceed sent p = true) ∧
    (sampleSnapshot.map Proc.pid).Nodup ∧ Acyclic sampleSnapshot ∧
    ∃ out, killProcessAndDescendants allSucceed 7 sampleSnapshot 10 [] = some (none, out) ∧
      out.Nodup ∧
      (∀ p, p ∈ out ↔ p = 10 ∨ Descends sampleSnapshot 10 p) ∧
      (∀ a d, a ∈ out → Descends sampleSnapshot a d → [d, a].Sublist out) ∧
      out.getLast? = some 10 ∧
      ((∀ p, ¬ Descends sampleSnapshot 10 p) → out = [10]) :=
  ⟨by decide, fun _ _ => rfl, by decide, sampleSnapshot_acyclic,
    kill_signals_tree_children_first allSucceed sampleSnapshot 10 7 (by decide)
      (fun _ _ => rfl) (by decide) sampleSnapshot_acyclic⟩

/-- C10: when the parent links of the snapshot are acyclic,
`killProcessAndDescendants` returns for every root pid and every outcome of
the signals within `length + 1` nested calls (the call for the root and at
most one level per snapshot entry); when the snapshot has an entry whose pid
and parent pid both equal the root pid and every signal succeeds, it does not
return, however deep the recursion may go. -/
theorem kill_terminates_of_acyclic (sig : Signaller) (processes : List Proc) (root : Int)
    (sent : List Int) :
    (Acyclic processes → ∀ fuel, processes.length + 1 ≤ fuel →
      ∃ r, killProcessAndDescendants sig fuel processes root sent = some r) ∧
    ((⟨root, root⟩ : Proc) ∈ processes →
      ∀ fuel, killProcessAndDescendants allSucceed fuel processes root sent = none) := by
  constructor
  · intro hac fuel hf
    obtain ⟨out, hout⟩ := visitOrder_terminates processes hac fuel hf root
    exact ⟨_, kill_eq sig processes fuel root out hout sent⟩
  · intro hmem fuel
    exact kill_self_parent processes root hmem fuel sent

theorem kill_terminates_of_acyclic_witness :
    Acyclic sampleSnapshot ∧
    (∃ r, killProcessAndDescendants failAt11 7 sampleSnapshot 10 [] = some r) ∧
    (⟨7, 7⟩ : Proc) ∈ selfParentSnapshot ∧
    (∀ fuel, killProcessAndDescendants allSucceed fuel selfParentSnapshot 7 [] = none) :=
  ⟨sampleSnapshot_acyclic,
    (kill_terminates_of_acyclic failAt11 sampleSnapshot 10 []).1 sampleSnapshot_acyclic 7
      (by decide),
    by decide,
    (kill_terminates_of_acyclic allSucceed selfParentSnapshot 7 []).2 (by decide)⟩

/-- What `sendUntilFailure` leaves behind: a part of the list that was to be
sent, cut after the first signal that failed. -/
theorem sendUntilFailure_spec (sig : Signaller) :
    ∀ (full sent : List Int), ∃ done,
      (sendUntilFailure sig sent full).2 = sent ++ done ∧
      done <+: full ∧
      (∀ before p after, done = before ++ p :: after → sig (sent ++ before) p = false →
        after = [] ∧ (sendUntilFailure sig sent full).1 = some p) ∧
      ((sendUntilFailure sig sent full).1 = none → done = full) ∧
      (∀ q, (sendUntilFailure sig sent full).1 = some q →
        ∃ before, done = before ++ [q] ∧ sig (sent ++ before) q = false) := by
  intro full
  induction full with
  | nil =>
    intro sent
    refine ⟨[], by simp [sendUntilFailure], List.nil_prefix, ?_, fun _ => rfl, ?_⟩
    · intro before p after h
      simp at h
    · intro q h
      simp [sendUntilFailure] at h
  | cons x rest ih =>
    intro sent
    by_cases hx : sig sent x = true
    · obtain ⟨done, h1, h2, h3, h4, h5⟩ := ih (sent ++ [x])
      have hstep : sendUntilFailure sig sent (x :: rest)
          = sendUntilFailure sig (sent ++ [x]) rest := by
        simp [sendUntilFailure, hx]
      rw [hstep]
      refine ⟨x :: done, by rw [h1]; simp, ?_, ?_, ?_, ?_⟩
      · obtain ⟨t, ht⟩ := h2
        exact ⟨t, by rw [← ht]; simp⟩
      · intro before p after hsplit hfail
        cases before with
        | nil =>
          simp only [List.nil_append, List.cons.injEq] at hsplit
          rw [← hsplit.1] at hfail
          simp only [List.append_nil] at hfail
          rw [hx] at hfail
          exact Bool.noConfusion hfail
        | cons b bs =>
          simp only [List.cons_append, List.cons.injEq] at hsplit
          obtain ⟨hb, hrest⟩ := hsplit
          subst hb
          apply h3 bs p after hrest
          simpa using hfail
      · intro hnone
        rw [h4 hnone]
      · intro q hq
        obtain ⟨before, hb1, hb2⟩ := h5 q hq
        exact ⟨x :: before, by rw [hb1]; simp, by simpa using hb2⟩
    · have hxf : sig sent x = false := by
        cases h : sig sent x
        · rfl
        · exact absurd h hx
      have hstep : sendUntilFailure sig sent (x :: rest) = (some x, sent ++ [x]) := by
        simp [sendUntilFailure, hxf]
      rw [hstep]
      refine ⟨[x], rfl, ⟨rest, rfl⟩, ?_, ?_, ?_⟩
      · intro before p after hsplit hfail
        cases before with
        | nil =>
          simp only [List.nil_append, List.cons.injEq] at hsplit
          exact ⟨hsplit.2.symm, by rw [hsplit.1]⟩
        | cons b bs =>
          simp only [List.cons_append, List.cons.injEq] at hsplit
          have := hsplit.2
          simp at this
      · intro h
        simp at h
      · intro q hq
        simp only [Option.some.injEq] at hq
        subst hq
        exact ⟨[], rfl, by simpa using hxf⟩

/-- The loop of `Network.Stop` sends the signals of the visit orders of the
roots, one root after the other, until the first failure. -/
theorem stopLoop_eq (processes : List Proc) (hac : Acyclic processes) (fuel : Nat)
    (hf : processes.length + 1 ≤ fuel) :
    ∀ (roots : List Int), ∃ full, ∀ (sig : Signaller) (sent : List Int),
      stopLoop sig fuel processes roots sent = some (stopResult (sendUntilFailure sig sent full)) := by
  intro roots
  induction roots with
  | nil => exact ⟨[], fun sig sent => by simp [stopLoop, stopResult, sendUntilFailure]⟩
  | cons r rest ih =>
    obtain ⟨a, ha⟩ := visitOrder_terminates processes hac fuel hf r
    obtain ⟨b, hb⟩ := ih
    refine ⟨a ++ b, fun sig sent => ?_⟩
    rw [stopLoop, kill_eq sig processes fuel r a ha sent, sendUntilFailure_append]
    rcases hres : sendUntilFailure sig sent a with ⟨err, sent1⟩
    cases err with
    | none => simp only; exact hb sig sent1
    | some q => simp [stopResult]

/-- C9: `Network.Stop` is fail-fast. When the process table cannot be listed
it returns an error and sends no signal. For an acyclic snapshot, whatever
roots were launched and whichever signals fail, the signals sent are an
initial part of those sent when every signal succeeds; a signal that fails is
the last one sent and `Stop` returns its error; when `Stop` returns nil all
signals were sent, and when it returns an error the last signal sent failed. -/
theorem Stop_fail_fast (sig : Signaller) (processes : List Proc) (net : Network)
    (fuel : Nat) (hf : processes.length + 1 ≤ fuel) (hac : Acyclic processes) :
    net.Stop sig fuel none = some (some StopError.listProcesses, []) ∧
    ∃ full, net.Stop allSucceed fuel (some processes) = some (none, full) ∧
      ∃ err sent, net.Stop sig fuel (some processes) = some (err, sent) ∧
        sent <+: full ∧
        (∀ before p after, sent = before ++ p :: after → sig before p = false →
          after = [] ∧ err = some (StopError.signal p)) ∧
        (err = none → sent = full) ∧
        (∀ e, err = some e → ∃ before q, e = StopError.signal q ∧ sent = before ++ [q] ∧
          sig before q = false) := by
  refine ⟨rfl, ?_⟩
  obtain ⟨full, hfull⟩ := stopLoop_eq processes hac fuel hf (net.procs.map (fun kv => kv.2.pid))
  obtain ⟨done, h1, h2, h3, h4, h5⟩ := sendUntilFailure_spec sig full []
  refine ⟨full, ?_, (sendUntilFailure sig [] full).1.map StopError.signal,
    (sendUntilFailure sig [] full).2, ?_, ?_, ?_, ?_, ?_⟩
  · simp only [Network.Stop]
    rw [hfull allSucceed [], sendUntilFailure_allSucceed]
    simp [stopResult]
  · simp only [Network.Stop]
    rw [hfull sig []]
    rfl
  · rw [h1]
    simpa using h2
  · intro before p after hsplit hfail
    rw [h1] at hsplit
    simp only [List.nil_append] at hsplit
    obtain ⟨r1, r2⟩ := h3 before p after hsplit (by simpa using hfail)
    exact ⟨r1, by rw [r2]; rfl⟩
  · intro hnone
    rw [h1]
    simp only [List.nil_append]
    apply h4
    cases hv : (sendUntilFailure sig [] full).1 with
    | none => rfl
    | some q => rw [hv] at hnone; simp at hnone
  · intro e he
    cases hv : (sendUntilFailure sig [] full).1 with
    | none => rw [hv] at he; simp at he
    | some q =>
      rw [hv] at he
      simp only [Option.map_some', Option.some.injEq] at he
      obtain ⟨before, hb1, hb2⟩ := h5 q hv
      exact ⟨before, q, he.symm, by rw [h1, hb1]; simp, by simpa using hb2⟩

theorem Stop_fail_fast_witness :
    sampleSnapshot.length + 1 ≤ 7 ∧ Acyclic sampleSnapshot ∧
    sampleNetwork.Stop failAt11 7 none = some (some StopError.listProcesses, []) ∧
    ∃ full, sampleNetwork.Stop allSucceed 7 (some sampleSnapshot) = some (none, full) ∧
      ∃ err sent, sampleNetwork.Stop failAt11 7 (some sampleSnapshot) = some (err, sent) ∧
        sent <+: full ∧
        (∀ before p after, sent = before ++ p :: after → failAt11 before p = false →
          after = [] ∧ err = some (StopError.signal p)) ∧
        (err = none → sent = full) ∧
        (∀ e, err = some e → ∃ before q, e = StopError.signal q ∧ sent = before ++ [q] ∧
          failAt11 before q = false) :=
  ⟨by decide, sampleSnapshot_acyclic,
    Stop_fail_fast failAt11 sampleSnapshot sampleNetwork 7 (by decide) sampleSnapshot_acyclic⟩

theorem Ready_evaluates_every_node_witness :
    (∀ node j, pollTime ≤ (sampleClient node).sleepTime j) ∧ 8 ≤ 8 ∧
    (mapKeys sampleNetwork.nodes).Nodup ∧
    ∃ body, sampleNetwork.Ready sampleClient 8 = some (body ++ [ReadyEvent.readySent]) ∧
      ReadyEvent.readySent ∉ body ∧
      (∀ k node, (k, node) ∈ sampleNetwork.nodes →
        ∃ res, waitNode (sampleClient node) 8 = some res ∧
          body.count (ReadyEvent.evaluated k res.ret) = 1 ∧
          body.count (ReadyEvent.evaluated k (!res.ret)) = 0 ∧
          body.count (ReadyEvent.errorSent k) = (if res.ret then 0 else 1)) ∧
      (∀ k, k ∉ mapKeys sampleNetwork.nodes →
        body.count (ReadyEvent.errorSent k) = 0 ∧
          ∀ b, body.count (ReadyEvent.evaluated k b) = 0) :=
  have hs : ∀ node j, pollTime ≤ (sampleClient node).sleepTime j := by
    intro node j
    unfold sampleClient
    split <;> exact Nat.le_refl _
  ⟨hs, by decide, by decide,
    Ready_evaluates_every_node sampleClient 8 sampleNetwork hs (by decide) (by decide)⟩

/-! ## Properties of the network construction -/

theorem mkID_injective {i j : Nat} (hi : i < 256) (hj : j < 256) (h : mkID i = mkID j) : i = j := by
  unfold mkID at h
  injection h with h
  injection h with h _
  rw [Nat.mod_eq_of_lt hi, Nat.mod_eq_of_lt hj] at h
  exact h

theorem mkID_counter {i : Nat} (hi : i < 256) : (mkID i).counter = i := by
  simp [mkID, ID.counter, Nat.mod_eq_of_lt hi]

theorem mapKeys_insert {κ ν : Type} [DecidableEq κ] (k : κ) (v : ν) :
    ∀ (m : GoMap κ ν), k ∉ mapKeys m → mapKeys (mapInsert m k v) = mapKeys m ++ [k] := by
  intro m
  induction m with
  | nil => intro _; rfl
  | cons kv rest ih =>
    intro hk
    obtain ⟨k1, v1⟩ := kv
    simp only [mapKeys, List.map_cons, List.mem_cons, not_or] at hk
    have hne : ¬ k1 = k := fun h => hk.1 h.symm
    simp only [mapInsert, hne, if_false, mapKeys, List.map_cons, List.cons_append]
    congr 1
    exact ih hk.2

theorem mapLookup_insert_self {κ ν : Type} [DecidableEq κ] (k : κ) (v : ν) :
    ∀ (m : GoMap κ ν), mapLookup (mapInsert m k v) k = some v := by
  intro m
  induction m with
  | nil => simp [mapInsert, mapLookup]
  | cons kv rest ih =>
    obtain ⟨k1, v1⟩ := kv
    by_cases h : k1 = k
    · simp [mapInsert, mapLookup, h]
    · simp [mapInsert, mapLookup, h, ih]

theorem mapLookup_insert_ne {κ ν : Type} [DecidableEq κ] (k k2 : κ) (v : ν) (hne : k2 ≠ k) :
    ∀ (m : GoMap κ ν), mapLookup (mapInsert m k v) k2 = mapLookup m k2 := by
  intro m
  induction m with
  | nil =>
    have : ¬ k = k2 := fun h => hne h.symm
    simp [mapInsert, mapLookup, this]
  | cons kv rest ih =>
    obtain ⟨k1, v1⟩ := kv
    by_cases h : k1 = k
    · subst h
      have : ¬ k1 = k2 := fun h => hne h.symm
      simp [mapInsert, mapLookup, this]
    · by_cases h2 : k1 = k2
      · subst h2
        simp [mapInsert, mapLookup, h]
      · simp [mapInsert, mapLookup, h, h2, ih]

/-- What a pass of the loop of `NewNetwork` that reaches its end has done to
the loop state: one entry in each map under the identity of the counter, the
counter advanced by one. -/
theorem launchNode_ok (h : Host) (binMap : GoMap Int String) (networkConfig : NetworkConfig)
    (nodeConfig : NodeConfig) (s s1 : LoopState) (w w1 : World)
    (hok : launchNode h binMap networkConfig nodeConfig s w = Res.ok s1 w1) :
    ∃ cmd node, s1.n = s.n + 1 ∧
      s1.net.procs = mapInsert s.net.procs (mkID s.n) cmd ∧
      s1.net.nodes = mapInsert s.net.nodes (mkID s.n) node ∧
      s1.net.nodeIDs = mapInsert s.net.nodeIDs (mkID s.n) nodeConfig.NodeID ∧
      cmd.path = (mapLookup binMap nodeConfig.BinKind).getD "" ∧
      node.name = nodeConfig.NodeID := by
  unfold launchNode at hok
  simp only [] at hok
  repeat' split at hok
  all_goals try (exact Res.noConfusion hok)
  injection hok with hs hw
  subst hs
  subst hw
  exact ⟨_, _, rfl, rfl, rfl, rfl, rfl, rfl⟩

/-- What the loop of `NewNetwork` has registered when it ends without error,
for at most 256 identities in all: the keys of the three maps are the
identities of the counters in order, and the entry of the counter `s.n + i`
comes from the `i`-th node config. -/
theorem launchNodes_ok (h : Host) (binMap : GoMap Int String) (networkConfig : NetworkConfig) :
    ∀ (cfgs : List NodeConfig) (s : LoopState) (w : World) (net : Network) (w1 : World),
      launchNodes h binMap networkConfig cfgs s w = Res.ok net w1 →
      s.n + cfgs.length ≤ 256 →
      (mapKeys s.net.procs = (List.range s.n).map mkID →
        mapKeys net.procs = (List.range (s.n + cfgs.length)).map mkID) ∧
      (mapKeys s.net.nodes = (List.range s.n).map mkID →
        mapKeys net.nodes = (List.range (s.n + cfgs.length)).map mkID) ∧
      (∀ k, (∀ i, i < cfgs.length → k ≠ mkID (s.n + i)) →
        mapLookup net.procs k = mapLookup s.net.procs k ∧
        mapLookup net.nodes k = mapLookup s.net.nodes k ∧
        mapLookup net.nodeIDs k = mapLookup s.net.nodeIDs k) ∧
      (∀ i nc, cfgs[i]? = some nc →
        ∃ cmd node, mapLookup net.procs (mkID (s.n + i)) = some cmd ∧
          cmd.path = (mapLookup binMap nc.BinKind).getD "" ∧
          mapLookup net.nodes (mkID (s.n + i)) = some node ∧ node.name = nc.NodeID ∧
          mapLookup net.nodeIDs (mkID (s.n + i)) = some nc.NodeID) := by
  intro cfgs
  induction cfgs with
  | nil =>
    intro s w net w1 hok _
    simp only [launchNodes] at hok
    injection hok with hnet _
    subst hnet
    refine ⟨fun hk => by simpa using hk, fun hk => by simpa using hk,
      fun k _ => ⟨rfl, rfl, rfl⟩, ?_⟩
    intro i nc hi
    simp at hi
  | cons c rest ih =>
    intro s w net w1 hok hlen
    simp only [List.length_cons] at hlen
    rw [launchNodes] at hok
    rcases hstep : launchNode h binMap networkConfig c s w with ⟨s1, w2⟩ | ⟨e, w2⟩ | ⟨msg, w2⟩
    · rw [hstep] at hok
      simp only at hok
      obtain ⟨cmd, node, hn, hprocs, hnodes, hids, hpath, hname⟩ :=
        launchNode_ok h binMap networkConfig c s s1 w w2 hstep
      obtain ⟨ihP, ihN, ihF, ihL⟩ := ih s1 w2 net w1 hok (by rw [hn]; omega)
      have hfresh : ∀ (ν : Type) (m : GoMap ID ν), mapKeys m = (List.range s.n).map mkID →
          mkID s.n ∉ mapKeys m := by
        intro ν m hm hmem
        rw [hm] at hmem
        obtain ⟨j, hj, hjeq⟩ := List.mem_map.mp hmem
        have hj2 : j < s.n := List.mem_range.mp hj
        have := mkID_injective (by omega) (by omega) hjeq
        omega
      have hrange : (List.range (s.n + 1)).map mkID = (List.range s.n).map mkID ++ [mkID s.n] := by
        rw [List.range_succ, List.map_append]
        rfl
      have hidx : s1.n + rest.length = s.n + (rest.length + 1) := by rw [hn]; omega
      have hlater : ∀ i, i < rest.length → mkID s.n ≠ mkID (s1.n + i) := by
        intro i hi heq
        have := mkID_injective (by omega) (by rw [hn]; omega) heq
        rw [hn] at this
        omega
      refine ⟨?_, ?_, ?_, ?_⟩
      · intro hk
        simp only [List.length_cons]
        rw [← hidx]
        apply ihP
        rw [hprocs, mapKeys_insert _ _ _ (hfresh _ _ hk), hk, hn, hrange]
      · intro hk
        simp only [List.length_cons]
        rw [← hidx]
        apply ihN
        rw [hnodes, mapKeys_insert _ _ _ (hfresh _ _ hk), hk, hn, hrange]
      · intro k hk
        have hk0 : k ≠ mkID s.n := by simpa using hk 0 (by simp)
        obtain ⟨f1, f2, f3⟩ := ihF k (by
          intro i hi
          have := hk (i + 1) (by simp only [List.length_cons]; omega)
          rw [hn]
          rw [show s.n + 1 + i = s.n + (i + 1) by omega]
          exact this)
        rw [f1, f2, f3, hprocs, hnodes, hids]
        exact ⟨mapLookup_insert_ne _ _ _ hk0 _, mapLookup_insert_ne _ _ _ hk0 _,
          mapLookup_insert_ne _ _ _ hk0 _⟩
      · intro i nc hi
        cases i with
        | zero =>
          simp only [List.getElem?_cons_zero, Option.some.injEq] at hi
          subst hi
          obtain ⟨f1, f2, f3⟩ := ihF (mkID s.n) hlater
          refine ⟨cmd, node, ?_, hpath, ?_, hname, ?_⟩
          · rw [Nat.add_zero, f1, hprocs]
            exact mapLookup_insert_self _ _ _
          · rw [Nat.add_zero, f2, hnodes]
            exact mapLookup_insert_self _ _ _
          · rw [Nat.add_zero, f3, hids]
            exact mapLookup_insert_self _ _ _
        | succ j =>
          simp only [List.getElem?_cons_succ] at hi
          obtain ⟨cmd2, node2, r⟩ := ihL j nc hi
          rw [hn, show s.n + 1 + j = s.n + (j + 1) by omega] at r
          exact ⟨cmd2, node2, r⟩
    · rw [hstep] at hok
      exact Res.noConfusion hok
    · rw [hstep] at hok
      exact Res.noConfusion hok

theorem manyNodeConfig_257_registered :
    registered (NewNetwork sampleHost (manyNodeConfig 257) sampleBinMap emptyWorld)
      = some (256, 256, some "256", some "256") := by
  decide!

/-- C1, as stated, fails: `NewNetwork` succeeds on a configuration of 257 node
configs, and the returned network has 256 registered identities, not 257; the
identity of counter 0 holds the node config of index 256, not the one of
index 0. -/
theorem NewNetwork_257_nodes_256_identities :
    (manyNodeConfig 257).NodeConfigs.length = 257 ∧
    ∃ net w, NewNetwork sampleHost (manyNodeConfig 257) sampleBinMap emptyWorld = Res.ok net w ∧
      net.procs.length = 256 ∧ net.nodes.length = 256 ∧
      mapLookup net.nodeIDs (mkID 0) = some "256" ∧
      (mapLookup net.nodes (mkID 0)).map Node.name = some "256" := by
  refine ⟨by simp [manyNodeConfig], ?_⟩
  have h := manyNodeConfig_257_registered
  rcases hr : NewNetwork sampleHost (manyNodeConfig 257) sampleBinMap emptyWorld
    with ⟨net, w⟩ | ⟨e, w⟩ | ⟨msg, w⟩
  · rw [hr] at h
    simp only [registered, Option.some.injEq, Prod.mk.injEq] at h
    exact ⟨net, w, rfl, h.1, h.2.1, h.2.2.1, h.2.2.2⟩
  · rw [hr] at h
    simp [registered] at h
  · rw [hr] at h
    simp [registered] at h

/-- C1, amended: for every network configuration with N ≤ 256 node configs on
which `NewNetwork` succeeds, the returned network has exactly N registered
identities in `procs` and in `nodes`, pairwise distinct, namely those of the
counters 0, ..., N - 1 in this order, and the i-th node config is registered
under the identity whose counter value is i. -/
theorem NewNetwork_registers_in_order (h : Host) (networkConfig : NetworkConfig)
    (binMap : GoMap Int String) (w : World) (net : Network) (w1 : World)
    (hok : NewNetwork h networkConfig binMap w = Res.ok net w1)
    (hN : networkConfig.NodeConfigs.length ≤ 256) :
    mapKeys net.procs = (List.range networkConfig.NodeConfigs.length).map mkID ∧
    mapKeys net.nodes = (List.range networkConfig.NodeConfigs.length).map mkID ∧
    net.procs.length = networkConfig.NodeConfigs.length ∧
    net.nodes.length = networkConfig.NodeConfigs.length ∧
    (mapKeys net.procs).Nodup ∧ (mapKeys net.nodes).Nodup ∧
    (∀ i nc, networkConfig.NodeConfigs[i]? = some nc →
      (mkID i).counter = i ∧
      ∃ cmd node, mapLookup net.procs (mkID i) = some cmd ∧
        cmd.path = (mapLookup binMap nc.BinKind).getD "" ∧
        mapLookup net.nodes (mkID i) = some node ∧ node.name = nc.NodeID ∧
        mapLookup net.nodeIDs (mkID i) = some nc.NodeID) := by
  unfold NewNetwork at hok
  cases hu : unmarshalInto [] networkConfig.CoreConfigFlags with
  | none =>
    rw [hu] at hok
    exact Res.noConfusion hok
  | some configFlags =>
    rw [hu] at hok
    simp only at hok
    obtain ⟨hP, hNo, _, hL⟩ := launchNodes_ok h binMap networkConfig networkConfig.NodeConfigs
      _ w net w1 hok (by simpa using hN)
    simp only [Nat.zero_add] at hP hNo hL
    have hP1 := hP (by simp [mapKeys])
    have hN1 := hNo (by simp [mapKeys])
    have hnd : ((List.range networkConfig.NodeConfigs.length).map mkID).Nodup := by
      refine List.Nodup.map_on ?_ (List.nodup_range _)
      intro a ha b hb hab
      have ha2 := List.mem_range.mp ha
      have hb2 := List.mem_range.mp hb
      exact mkID_injective (by omega) (by omega) hab
    refine ⟨hP1, hN1, ?_, ?_, ?_, ?_, ?_⟩
    · have := congrArg List.length hP1
      simpa [mapKeys] using this
    · have := congrArg List.length hN1
      simpa [mapKeys] using this
    · rw [hP1]
      exact hnd
    · rw [hN1]
      exact hnd
    · intro i nc hi
      have hlt : i < networkConfig.NodeConfigs.length := by
        rcases Nat.lt_or_ge i networkConfig.NodeConfigs.length with h1 | h1
        · exact h1
        · rw [List.getElem?_eq_none h1] at hi
          exact Option.noConfusion hi
      exact ⟨mkID_counter (by omega), hL i nc hi⟩

theorem NewNetwork_registers_in_order_witness :
    ∃ net w1, NewNetwork sampleHost twoNodeConfig sampleBinMap emptyWorld = Res.ok net w1 ∧
      twoNodeConfig.NodeConfigs.length ≤ 256 ∧
      mapKeys net.procs = (List.range twoNodeConfig.NodeConfigs.length).map mkID ∧
      mapKeys net.nodes = (List.range twoNodeConfig.NodeConfigs.length).map mkID ∧
      net.procs.length = twoNodeConfig.NodeConfigs.length ∧
      net.nodes.length = twoNodeConfig.NodeConfigs.length ∧
      (mapKeys net.procs).Nodup ∧ (mapKeys net.nodes).Nodup ∧
      (∀ i nc, twoNodeConfig.NodeConfigs[i]? = some nc →
        (mkID i).counter = i ∧
        ∃ cmd node, mapLookup net.procs (mkID i) = some cmd ∧
          cmd.path = (mapLookup sampleBinMap nc.BinKind).getD "" ∧
          mapLookup net.nodes (mkID i) = some node ∧ node.name = nc.NodeID ∧
          mapLookup net.nodeIDs (mkID i) = some nc.NodeID) :=
  ⟨_, _, rfl, by decide,
    NewNetwork_registers_in_order sampleHost twoNodeConfig sampleBinMap emptyWorld _ _ rfl
      (by decide)⟩

/-- C6: on a configuration of two nodes whose first node overrides `log-level`
and whose second node does not, the configuration file of the second node
carries the value of the first node's override, not the base value: the flag
mapping is decoded into again for every node without being reset. -/
theorem NewNetwork_second_node_keeps_first_override :
    ∃ net w flags,
      NewNetwork sampleHost twoNodeConfig sampleBinMap emptyWorld = Res.ok net w ∧
      mapLookup w.files "/n1/config.json" = some (Contents.flags flags) ∧
      mapLookup flags "log-level" = some (JValue.str "debug") ∧
      mapLookup baseFlags "log-level" = some (JValue.str "info") ∧
      twoNodeConfig.NodeConfigs.map NodeConfig.ConfigFlags
        = [some [("chain-config-dir", JValue.str "/n0"), ("log-level", JValue.str "debug")],
           some [("chain-config-dir", JValue.str "/n1")]] :=
  ⟨_, _, _, rfl, rfl, rfl, rfl, rfl⟩

/-- C8: on a configuration whose merged flags lack `public-ip`, `NewNetwork`
panics instead of returning an error, and it does so after the process of
that node has been started; on a configuration whose `genesis` flag is a
number it panics as well, before any process is started. -/
theorem NewNetwork_missing_flag_panics :
    (∃ w, NewNetwork sampleHost noIPConfig sampleBinMap emptyWorld = Res.panic "public-ip" w ∧
      w.started = [⟨"/bin/avalanchego", "--config-file=/n/config.json", 100⟩]) ∧
    (∃ w, NewNetwork sampleHost numericGenesisConfig sampleBinMap emptyWorld
        = Res.panic "genesis" w ∧ w.started = []) :=
  ⟨⟨_, rfl, rfl⟩, ⟨_, rfl, rfl⟩⟩

end LocalNetworkRunner
